import Mathlib

/-!
# OpenMP / pthread parallel programming labs

A shallow embedding of the matrix-multiplication runner (`matrix_mult.c`), of the
reduction benchmark (`lab2.c`) and of the prime finder (`lab3_primes.c`), with the
properties stated about them.

Conventions of the embedding.

* The `int` variables of `parallel_mm` (row indices, start rows, strides), the `int`
  result of `estimate_nth_prime` and the `int` counter `num` of `find_primes_sequential`
  are integers kept in 32 bits: `wrap` reduces the exact result of an operation that can
  leave the range to 32 bits, two's complement.  (C leaves signed overflow undefined; the
  wrap is the behaviour of the usual targets.)  Counts and indices that the programs only
  use as non-negative values bounded by an array length or a loop bound (array length,
  thread id of a reduction, index into `primes`) are natural numbers.  Values read from the
  command line by `atoi` are integers (`Int`), since they may be zero or negative.
* A `double *` or `double **` is a total map from indices to entries; allocation and
  bounds are not modelled, except that an access to a row below 0 is a fault.  The entry
  type is a parameter: the multiplication results need only `0`, `+` and `*` with no law
  at all, so they hold for any arithmetic evaluated in the order the code evaluates it.
  Where rounding matters, `lab2.double` is the IEEE 754 binary64 arithmetic on the values
  that are integers.
* The pthreads of `run_experiment` run concurrently.  A worker is a program point with the
  values of its local variables; a step of a worker is one test of a loop condition with
  the statement it leads to, with at most one access (a load or a store) to the shared
  matrix `C`; a run of the workers is a list of thread ids, the worker that takes the
  next step at each moment.  Every interleaving of the workers at this granularity is
  such a list, and results are stated for every list.
* The workers of the OpenMP regions of `lab2.c` and `lab3_primes.c` that are modelled write
  shared memory only in a critical section or at an index of their own; such a region is
  the sequence of the worker bodies (or loop iterations) in an order given as a list.
* A sequential loop that may fail to terminate takes a fuel argument that bounds the
  number of times its condition is evaluated, and returns `none` when the fuel runs out.
-/

/-- The loop `for (i = lo; i < hi; i++) body`, for a body that changes neither `i` nor the
bounds. -/
def for_loop {σ : Type} (lo hi : Nat) (body : Nat → σ → σ) (s : σ) : σ :=
  (List.range' lo (hi - lo)).foldl (fun s i => body i s) s

/-- The value an `int` holds after an operation whose exact result is `x`: the result
reduced to 32 bits, two's complement. -/
def wrap (x : Int) : Int := (x + 2147483648) % 4294967296 - 2147483648

namespace matrix_mult

/-- The type `double **`: row index, column index, entry. -/
abbrev Mat (α : Type) := Nat → Nat → α

/-- The assignment `M[i][j] = v`. -/
def Mat.set {α : Type} (M : Mat α) (i j : Nat) (v : α) : Mat α :=
  fun a b => if a = i ∧ b = j then v else M a b

/-- The struct `thread_data_t` without its `C` field: the matrix `C` is the shared memory
the workers write. -/
structure thread_data_t (α : Type) where
  thread_id : Int
  num_threads : Int
  chunk_size : Int
  schedule_type : Int
  n : Int
  A : Mat α
  B : Mat α

/-- The memory shared by the workers of a parallel region: the matrix `C`, and two ghost
logs, `visits` with the thread id and the row of every row computation begun, and
`fetches` with the thread id of every fetch of a start row under the dynamic schedule. -/
structure Region (α : Type) where
  C : Mat α
  visits : List (Int × Int)
  fetches : List Int

/-- Where a worker stands in `parallel_mm`, with the values of its local variables.
`x` is `i` of the static loop or `next_row` of the dynamic loop, `start` the first row
of the current tile (`i`, or `start_row`), `ii` the row (`ii`, or `i` in the dynamic
branch), `tmp` the value of `C[ii][j]` read for `+=`. -/
inductive pc (α : Type) where
  | outer (x : Int)
  | tile (x start ii : Int)
  | col (x start ii j : Int)
  | inner (x start ii j k : Int)
  | add (x start ii j k : Int) (tmp : α)
  | done
  | fault

/-- Whether the worker has returned from `parallel_mm`. -/
def pc.is_done {α : Type} : pc α → Bool
  | pc.done => true
  | _ => false

section kernel

variable {α : Type} [Zero α] [Add α] [Mul α]

/-- The statements `C[i][j] = 0.0; for (k = 0; k < n; k++) C[i][j] += A[i][k] * B[k][j];`
of `sequential_mm`. -/
def mm_entry (A B : Mat α) (n i j : Nat) (C : Mat α) : Mat α :=
  for_loop 0 n (fun k C => C.set i j (C i j + A i k * B k j)) (C.set i j 0)

/-- The loop `for (j = 0; j < n; j++)` around `mm_entry`: one row of the product. -/
def mm_row (A B : Mat α) (n i : Nat) (C : Mat α) : Mat α :=
  for_loop 0 n (fun j C => mm_entry A B n i j C) C

/-- The function `sequential_mm(A, B, C, n)`. -/
def sequential_mm (A B C : Mat α) (n : Nat) : Mat α :=
  for_loop 0 n (fun i C => mm_row A B n i C) C

/-- The point at which a worker enters `parallel_mm`: the head of the static loop with
`i = thread_id * chunk_size`, or the head of the dynamic loop with its local
`next_row = 0`. -/
def parallel_mm_init (d : thread_data_t α) : pc α :=
  if d.schedule_type = 0 then pc.outer (wrap (d.thread_id * d.chunk_size))
  else pc.outer 0

/-- One step of a worker in `parallel_mm`: one test of a loop condition with the statement
it leads to, with at most one access to the shared matrix.
* `outer`: static, the test `i < n`; dynamic, the fetch
  `start_row = next_row; next_row += chunk_size` and the test `start_row >= n`.
* `tile`: the test `ii < i + chunk_size && ii < n`, and on exit of a static tile
  `i += num_threads * chunk_size`.
* `col`: the test `j < n` and the store `C[ii][j] = 0.0`, or `ii++`.
* `inner`: the test `k < n` and the load of `C[ii][j]`, or `j++`.
* `add`: the store `C[ii][j] = tmp + A[ii][k] * B[k][j]` and `k++`.
An access to a row below 0 is a fault.  The increments `ii++`, `j++`, `k++` are of values
below `n` and cannot overflow. -/
def parallel_mm_step (d : thread_data_t α) : pc α → Region α → pc α × Region α
  | pc.outer x, s =>
    if d.schedule_type = 0 then
      if x < d.n then (pc.tile x x x, s) else (pc.done, s)
    else
      if x ≥ d.n then (pc.done, { s with fetches := s.fetches ++ [d.thread_id] })
      else (pc.tile (wrap (x + d.chunk_size)) x x,
        { s with fetches := s.fetches ++ [d.thread_id] })
  | pc.tile x start ii, s =>
    if ii < wrap (start + d.chunk_size) ∧ ii < d.n then
      (pc.col x start ii 0, { s with visits := s.visits ++ [(d.thread_id, ii)] })
    else if d.schedule_type = 0 then
      (pc.outer (wrap (x + wrap (d.num_threads * d.chunk_size))), s)
    else (pc.outer x, s)
  | pc.col x start ii j, s =>
    if j < d.n then
      if ii < 0 then (pc.fault, s)
      else (pc.inner x start ii j 0, { s with C := s.C.set ii.toNat j.toNat 0 })
    else (pc.tile x start (ii + 1), s)
  | pc.inner x start ii j k, s =>
    if k < d.n then
      if ii < 0 then (pc.fault, s)
      else (pc.add x start ii j k (s.C ii.toNat j.toNat), s)
    else (pc.col x start ii (j + 1), s)
  | pc.add x start ii j k tmp, s =>
    (pc.inner x start ii j (k + 1),
      { s with
        C := s.C.set ii.toNat j.toNat (tmp + d.A ii.toNat k.toNat * d.B k.toNat j.toNat) })
  | pc.done, s => (pc.done, s)
  | pc.fault, s => (pc.fault, s)

/-- The `thread_data[t]` that `run_experiment` fills in for worker `t`. -/
def thread_data (n num_threads chunk_size schedule_type : Int) (A B : Mat α) (t : Nat) :
    thread_data_t α :=
  { thread_id := t, num_threads := num_threads, chunk_size := chunk_size,
    schedule_type := schedule_type, n := n, A := A, B := B }

/-- The workers of a parallel region, each where it stands, and the memory they share. -/
structure Pool (α : Type) where
  pcs : Nat → pc α
  mem : Region α

/-- The pool when the threads have been created: every worker at the entry of
`parallel_mm`, the matrix `C` as allocated, the ghost logs empty. -/
def pool_init (n num_threads chunk_size schedule_type : Int) (A B : Mat α) (C : Mat α) :
    Pool α :=
  { pcs := fun t => parallel_mm_init (thread_data n num_threads chunk_size schedule_type A B t),
    mem := { C := C, visits := [], fetches := [] } }

/-- One step of worker `t` in the pool; there is no worker `t` from `num_threads` on. -/
def pool_step (n num_threads chunk_size schedule_type : Int) (A B : Mat α) (P : Pool α)
    (t : Nat) : Pool α :=
  if (t : Int) < num_threads then
    { pcs := Function.update P.pcs t
        (parallel_mm_step (thread_data n num_threads chunk_size schedule_type A B t)
          (P.pcs t) P.mem).1
      mem := (parallel_mm_step (thread_data n num_threads chunk_size schedule_type A B t)
        (P.pcs t) P.mem).2 }
  else P

/-- The concurrent run of the workers: `schedule` lists, step by step, the worker that
takes the next step, so that every interleaving of the workers' steps is a schedule. -/
def run_threads (n num_threads chunk_size schedule_type : Int) (A B : Mat α)
    (schedule : List Nat) (P : Pool α) : Pool α :=
  schedule.foldl (pool_step n num_threads chunk_size schedule_type A B) P

/-- Whether every worker has returned, so that the `pthread_join` loop ends. -/
def joined (num_threads : Int) (P : Pool α) : Bool :=
  (List.range num_threads.toNat).all (fun t => (P.pcs t).is_done)

/-- The multiply step of `run_experiment`, between the two calls of `get_time`, under the
interleaving `schedule` of the workers: the shared memory once all workers are joined,
and `none` when the schedule ends before that. -/
def run_experiment_multiply (schedule : List Nat)
    (n num_threads chunk_size schedule_type : Int) (A B : Mat α) (C : Mat α) :
    Option (Region α) :=
  if num_threads = 1 then
    some { C := sequential_mm A B C n.toNat, visits := [], fetches := [] }
  else if joined num_threads
      (run_threads n num_threads chunk_size schedule_type A B schedule
        (pool_init n num_threads chunk_size schedule_type A B C)) then
    some (run_threads n num_threads chunk_size schedule_type A B schedule
      (pool_init n num_threads chunk_size schedule_type A B C)).mem
  else none

/-- The sum of `A[i][k] * B[k][j]` over `k = 0 .. n-1`, taken in increasing `k` starting
from 0: the value the specification gives for entry `(i, j)` of the product. -/
def dot (A B : Mat α) (n i j : Nat) : α :=
  (List.range n).foldl (fun acc k => acc + A i k * B k j) 0

/-- The `N x N` identity matrix. -/
def identity (α : Type) [Zero α] [One α] : Mat α :=
  fun i j => if i = j then 1 else 0

end kernel

/-- The first row of the first tile of worker `t`: `t * c` under the static schedule, 0
under the dynamic one. -/
def tile_base (c : Nat) (sched : Int) (t : Nat) : Nat :=
  if sched = 0 then t * c else 0

/-- The distance between the first rows of two successive tiles of a worker: `W * c` under
the static schedule, `c` under the dynamic one. -/
def tile_stride (W c : Nat) (sched : Int) : Nat :=
  if sched = 0 then W * c else c

/-- Row `r` lies in a tile of worker `t`. -/
def owns (W c : Nat) (sched : Int) (t : Nat) (r : Int) : Prop :=
  ∃ m : Nat, ((tile_base c sched t + m * tile_stride W c sched : Nat) : Int) ≤ r ∧
    r < ((tile_base c sched t + m * tile_stride W c sched : Nat) : Int) + c

/-- The local variables of worker `t` are those of a run without overflow: the tile
starts at one of the worker's tile rows, and the indices are within their loops. -/
def wf {α : Type} (n W c : Nat) (sched : Int) (t : Nat) : pc α → Prop
  | pc.outer x => ∃ m : Nat,
      x = ((tile_base c sched t + m * tile_stride W c sched : Nat) : Int) ∧
      tile_base c sched t + m * tile_stride W c sched < n + tile_stride W c sched
  | pc.tile x start ii => ∃ m : Nat,
      start = ((tile_base c sched t + m * tile_stride W c sched : Nat) : Int) ∧
      start < n ∧ x = (if sched = 0 then start else start + c) ∧
      start ≤ ii ∧ ii ≤ start + c ∧ ii ≤ n
  | pc.col x start ii j => ∃ m : Nat,
      start = ((tile_base c sched t + m * tile_stride W c sched : Nat) : Int) ∧
      start < n ∧ x = (if sched = 0 then start else start + c) ∧
      start ≤ ii ∧ ii < start + c ∧ ii < n ∧ 0 ≤ j ∧ j ≤ n
  | pc.inner x start ii j k => ∃ m : Nat,
      start = ((tile_base c sched t + m * tile_stride W c sched : Nat) : Int) ∧
      start < n ∧ x = (if sched = 0 then start else start + c) ∧
      start ≤ ii ∧ ii < start + c ∧ ii < n ∧ 0 ≤ j ∧ j < n ∧ 0 ≤ k ∧ k ≤ n
  | pc.add x start ii j k _ => ∃ m : Nat,
      start = ((tile_base c sched t + m * tile_stride W c sched : Nat) : Int) ∧
      start < n ∧ x = (if sched = 0 then start else start + c) ∧
      start ≤ ii ∧ ii < start + c ∧ ii < n ∧ 0 ≤ j ∧ j < n ∧ 0 ≤ k ∧ k < n
  | pc.done => True
  | pc.fault => False

/-- The rows whose computation worker `t` has begun, in the order of the log. -/
def visits_of {α : Type} (t : Nat) (s : Region α) : List Int :=
  (s.visits.filter (fun v => v.1 = (t : Int))).map Prod.snd

/-- The number of start rows worker `t` has fetched. -/
def fetch_count {α : Type} (t : Nat) (s : Region α) : Nat :=
  s.fetches.count (t : Int)

/-- The row below which a worker at `p` has begun all the rows of its tiles. -/
def visit_pos {α : Type} (n : Nat) : pc α → Int
  | pc.outer x => x
  | pc.tile _ _ ii => ii
  | pc.col _ _ ii _ => ii + 1
  | pc.inner _ _ ii _ _ => ii + 1
  | pc.add _ _ ii _ _ _ => ii + 1
  | pc.done => n
  | pc.fault => 0

/-- The rows worker `t` has begun are, in increasing order and once each, the rows of its
tiles that are below `n` and below its position. -/
def visits_inv {α : Type} (n W c : Nat) (sched : Int) (t : Nat) (p : pc α) (s : Region α) :
    Prop :=
  (visits_of t s).Pairwise (fun a b => a < b) ∧
  ∀ r, r ∈ visits_of t s ↔ owns W c sched t r ∧ r < n ∧ r < visit_pos n p

/-- The row below which a worker at `p` has finished all the rows of its tiles. -/
def content_pos {α : Type} (n : Nat) : pc α → Int
  | pc.outer x => x
  | pc.tile _ _ ii => ii
  | pc.col _ _ ii _ => ii
  | pc.inner _ _ ii _ _ => ii
  | pc.add _ _ ii _ _ _ => ii
  | pc.done => n
  | pc.fault => 0

/-- The entries of `C` that worker `t` at `p` has finished hold the entries of the
product: the rows of its tiles below its position, the columns of its current row below
its current column; and the current entry (or the value read from it) holds the sum of
the products added so far. -/
def content_inv {α : Type} [Zero α] [Add α] [Mul α] (n W c : Nat) (sched : Int)
    (A B : Mat α) (t : Nat) (p : pc α) (s : Region α) : Prop :=
  (∀ r j : Nat, owns W c sched t r → r < n → j < n → (r : Int) < content_pos n p →
    s.C r j = dot A B n r j) ∧
  match p with
  | pc.col _ _ ii j => ∀ j' : Nat, (j' : Int) < j → s.C ii.toNat j' = dot A B n ii.toNat j'
  | pc.inner _ _ ii j k =>
    (∀ j' : Nat, (j' : Int) < j → s.C ii.toNat j' = dot A B n ii.toNat j') ∧
      s.C ii.toNat j.toNat = dot A B k.toNat ii.toNat j.toNat
  | pc.add _ _ ii j k tmp =>
    (∀ j' : Nat, (j' : Int) < j → s.C ii.toNat j' = dot A B n ii.toNat j') ∧
      tmp = dot A B k.toNat ii.toNat j.toNat
  | _ => True

/-- The start rows worker `t` has fetched under the dynamic schedule are as many as its
`next_row` tells: `next_row` is the number of fetches times `c`, and a worker that has
returned has fetched `ceil(n / c) + 1` times. -/
def fetch_inv {α : Type} (n c : Nat) (t : Nat) (p : pc α) (s : Region α) : Prop :=
  match p with
  | pc.outer x => (fetch_count t s : Int) * c = x
  | pc.tile x _ _ => (fetch_count t s : Int) * c = x
  | pc.col x _ _ _ => (fetch_count t s : Int) * c = x
  | pc.inner x _ _ _ _ => (fetch_count t s : Int) * c = x
  | pc.add x _ _ _ _ _ => (fetch_count t s : Int) * c = x
  | pc.done => fetch_count t s = (n + c - 1) / c + 1
  | pc.fault => True

/-- The worker is in its loops with the outer row index at 0, in a tile that starts at
row 0: where it stays when the row index does not advance. -/
def stuck {α : Type} : pc α → Prop
  | pc.outer x => x = 0
  | pc.tile x start ii => x = 0 ∧ start = 0 ∧ 0 ≤ ii
  | pc.col x start ii _ => x = 0 ∧ start = 0 ∧ 0 ≤ ii
  | pc.inner x start ii _ _ => x = 0 ∧ start = 0 ∧ 0 ≤ ii
  | pc.add x start ii _ _ _ => x = 0 ∧ start = 0 ∧ 0 ≤ ii
  | pc.done => False
  | pc.fault => False

/-- What holds of a pool in a run without overflow, whatever the interleaving: each
worker's local variables are well formed, its log of visits holds the rows of its tiles
below its position, under the static schedule (or when it is the only worker) the entries
it has finished are those of the product, under the dynamic schedule its fetches are
counted by its `next_row`; and every entry of the log of visits is by one of the
workers. -/
def pool_inv {α : Type} [Zero α] [Add α] [Mul α] (n W c : Nat) (sched : Int)
    (A B : Mat α) (P : Pool α) : Prop :=
  (∀ t, t < W → wf n W c sched t (P.pcs t) ∧ visits_inv n W c sched t (P.pcs t) P.mem ∧
    (sched = 0 ∨ W = 1 → content_inv n W c sched A B t (P.pcs t) P.mem) ∧
    (sched ≠ 0 → fetch_inv n c t (P.pcs t) P.mem)) ∧
  ∀ v, v ∈ P.mem.visits → ∃ t, t < W ∧ v.1 = (t : Int)

/-- A bound on the number of steps a worker still takes before it returns, for a matrix
side `n`: `2n + 2` steps for an entry, `n (2n + 2) + 2` for a row, and two more for the
tile around it. -/
def steps_left {α : Type} (n : Nat) : pc α → Nat
  | pc.outer x => ((n : Int) - x).toNat * (n * (2 * n + 2) + 4) + 2
  | pc.tile _ start ii =>
    ((n : Int) - ii).toNat * (n * (2 * n + 2) + 4) + (if ii = start then 1 else 3)
  | pc.col _ _ ii j =>
    ((n : Int) - ii - 1).toNat * (n * (2 * n + 2) + 4) + 3 +
      ((n : Int) - j).toNat * (2 * n + 2) + 1
  | pc.inner _ _ ii j k =>
    ((n : Int) - ii - 1).toNat * (n * (2 * n + 2) + 4) + 3 +
      ((n : Int) - j - 1).toNat * (2 * n + 2) + 1 + 2 * ((n : Int) - k).toNat + 1
  | pc.add _ _ ii j k _ =>
    ((n : Int) - ii - 1).toNat * (n * (2 * n + 2) + 4) + 3 +
      ((n : Int) - j - 1).toNat * (2 * n + 2) + 1 + 2 * ((n : Int) - k).toNat
  | pc.done => 0
  | pc.fault => 0

/-- The number of steps after which a worker has returned, whatever the interleaving. -/
def step_bound (n : Nat) : Nat := n * (n * (2 * n + 2) + 4) + 2

end matrix_mult

namespace lab2

section reduction

variable {α : Type} [Zero α] [Add α]

/-- The function `sequential_sum(array, size)`. -/
def sequential_sum (array : Nat → α) (size : Nat) : α :=
  for_loop 0 size (fun i sum => sum + array i) 0

/-- The bounds `(start, end)` a worker of `manual_reduction_sum` computes:
`chunk_size = size / num_threads`, `start = thread_id * chunk_size`,
`end = (thread_id == num_threads - 1) ? size : start + chunk_size`. -/
def manual_range (size num_threads thread_id : Nat) : Nat × Nat :=
  let chunk_size := size / num_threads
  let start := thread_id * chunk_size
  (start, if thread_id = num_threads - 1 then size else start + chunk_size)

/-- The `local_sum` a worker of `manual_reduction_sum` has after its loop
`for (i = start; i < end; i++) local_sum += array[i]`. -/
def manual_local_sum (array : Nat → α) (size num_threads thread_id : Nat) : α :=
  for_loop (manual_range size num_threads thread_id).1
    (manual_range size num_threads thread_id).2 (fun i local_sum => local_sum + array i) 0

/-- The function `manual_reduction_sum(array, size, _)` run by a team of `num_threads`
workers: `sum` starts at 0 and each worker adds its `local_sum` in the critical section;
`order` lists the thread ids in the order in which they enter it. -/
def manual_reduction_sum (array : Nat → α) (size num_threads : Nat) (order : List Nat) : α :=
  order.foldl (fun sum thread_id => sum + manual_local_sum array size num_threads thread_id) 0

end reduction

/-- The `error` figure of `print_results`, `fabs(sum - expected_sum) / expected_sum * 100.0`,
over the rationals; `none` when the division is by zero, where the C expression gives
an infinity or a NaN and no number. -/
def print_results_error (sum expected_sum : ℚ) : Option ℚ :=
  if expected_sum = 0 then none
  else some (abs (sum - expected_sum) / expected_sum * 100)

/-- The relative error of the glossary, in the specification's words:
`|observed − expected| / max(1, |expected|)`. -/
def relative_error_spec (observed expected : ℚ) : ℚ :=
  abs (observed - expected) / max 1 (abs expected)

/-- The number of low binary digits that a natural number `a` loses when it is kept to 53
significant binary digits; `fuel` bounds the number of digits looked at. -/
def drop_bits : Nat → Nat → Nat
  | 0, _ => 0
  | fuel + 1, a => if a < 2 ^ 53 then 0 else drop_bits fuel (a / 2) + 1

/-- The integer nearest to `z` among those with at most 53 significant binary digits, the
one with the even last digit when two are equally near: the rounding of IEEE 754 binary64
in the default mode, for a value below the overflow threshold `2 ^ 1024`. -/
def round53 (z : Int) : Int :=
  let a := z.natAbs
  let e := drop_bits 2048 a
  let q := a / 2 ^ e
  let r := a % 2 ^ e
  let q' := if 2 ^ e < 2 * r ∨ (2 * r = 2 ^ e ∧ q % 2 = 1) then q + 1 else q
  z.sign * ((q' * 2 ^ e : Nat) : Int)

/-- A value of the C type `double` that is an integer, given by that integer. -/
structure double where
  val : Int
  deriving DecidableEq

/-- The `double` 0.0. -/
instance double.instZero : Zero double := ⟨⟨0⟩⟩

/-- The sum `x + y` of two `double` values that are integers: the exact sum, an integer,
rounded to 53 significant binary digits. -/
instance double.instAdd : Add double := ⟨fun x y => ⟨round53 (x.val + y.val)⟩⟩

end lab2

namespace matrix_mult

/-- The C library's `strtok` with the delimiter set `","`, called until it returns `NULL`:
the maximal comma-free pieces of the string that are not empty, in order.  `cur` holds
the characters of the piece being read, last first. -/
def strtok_comma : List Char → List Char → List (List Char)
  | [], cur => if cur = [] then [] else [cur.reverse]
  | ch :: rest, cur =>
    if ch = ',' then
      if cur = [] then strtok_comma rest [] else cur.reverse :: strtok_comma rest []
    else strtok_comma rest (ch :: cur)

/-- The C library's `isspace` in the "C" locale: space, and the control characters 9 to 13
(tab, newline, vertical tab, form feed, carriage return). -/
def isspace (ch : Char) : Bool :=
  ch.toNat = 32 || (9 ≤ ch.toNat && ch.toNat ≤ 13)

/-- The value of the longest prefix of decimal digits, after the digits read so far. -/
def atoi_digits : List Char → Nat → Nat
  | [], acc => acc
  | ch :: rest, acc =>
    if ch.isDigit then atoi_digits rest (10 * acc + (ch.toNat - 48)) else acc

/-- The sign and the digits of `atoi`, after the white space. -/
def atoi_signed : List Char → Int
  | [] => 0
  | ch :: rest =>
    if ch = '-' then - (atoi_digits rest 0 : Int)
    else if ch = '+' then (atoi_digits rest 0 : Int)
    else (atoi_digits (ch :: rest) 0 : Int)

/-- The C library's `atoi`: leading white space is skipped, then an optional sign and the
longest run of decimal digits are read; text without digits there gives 0.  Values outside
the range of `int` are undefined in C and are not reduced here. -/
def atoi : List Char → Int
  | [] => 0
  | ch :: rest => if isspace ch then atoi rest else atoi_signed (ch :: rest)

/-- The loop `while (token != NULL && *count < 10)` of `parse_comma_separated`, over the
tokens still to come. -/
def parse_comma_separated_loop :
    List (List Char) → (Nat → Int) → Nat → (Nat → Int) × Nat
  | [], array, count => (array, count)
  | token :: rest, array, count =>
    if count < 10 then
      parse_comma_separated_loop rest (Function.update array count (atoi token)) (count + 1)
    else (array, count)

/-- The function `parse_comma_separated(str, array, count)`: the array and the count it
leaves. -/
def parse_comma_separated (str : List Char) (array : Nat → Int) : (Nat → Int) × Nat :=
  parse_comma_separated_loop (strtok_comma str []) array 0

/-- The struct `config_t`.  The arrays are maps from index to entry; the four counts only
ever hold the defaults or a count between 0 and 10, and are natural numbers. -/
structure config_t where
  sizes : Nat → Int
  num_sizes : Nat
  threads : Nat → Int
  num_threads : Nat
  chunk_sizes : Nat → Int
  num_chunk_sizes : Nat
  schedule_types : Nat → Int
  num_schedule_types : Nat
  verbose : Int
  test_all : Int

/-- The function `init_default_config(config)`; entries it does not assign keep what the
(uninitialised) struct held. -/
def init_default_config (config : config_t) : config_t :=
  { sizes := Function.update (Function.update (Function.update config.sizes 0 256) 1 512)
      2 1024
    num_sizes := 3
    threads := Function.update (Function.update (Function.update
      (Function.update config.threads 0 1) 1 2) 2 4) 3 8
    num_threads := 4
    chunk_sizes := Function.update (Function.update (Function.update config.chunk_sizes
      0 1) 1 16) 2 64
    num_chunk_sizes := 3
    schedule_types := Function.update config.schedule_types 0 0
    num_schedule_types := 1
    verbose := 0
    test_all := 0 }

/-- The loop `while (token != NULL && config->num_schedule_types < 2)` of the `case 'd'`
of `parse_arguments`, over the tokens still to come: a token that is neither `static` nor
`dynamic` takes no branch and the loop goes on to the next token. -/
def parse_schedule_loop :
    List (List Char) → (Nat → Int) → Nat → (Nat → Int) × Nat
  | [], schedule_types, num => (schedule_types, num)
  | token :: rest, schedule_types, num =>
    if num < 2 then
      if token = "static".toList then
        parse_schedule_loop rest (Function.update schedule_types num 0) (num + 1)
      else if token = "dynamic".toList then
        parse_schedule_loop rest (Function.update schedule_types num 1) (num + 1)
      else parse_schedule_loop rest schedule_types num
    else (schedule_types, num)

/-- The code `parse_arguments` stores for a schedule name: 0 for `static`, 1 for `dynamic`,
and nothing for any other token. -/
def schedule_code (token : List Char) : Option Int :=
  if token = "static".toList then some 0
  else if token = "dynamic".toList then some 1
  else none

/-- The option characters for which the switch of `parse_arguments` has a case that ends in
`break`, so that the loop goes on. -/
def has_case (c : Char) : Bool :=
  c = 's' || c = 't' || c = 'c' || c = 'd' || c = 'a' || c = 'v'

/-- A `config_t` whose memory is all zero. -/
def blank_config : config_t :=
  { sizes := fun _ => 0, num_sizes := 0, threads := fun _ => 0, num_threads := 0,
    chunk_sizes := fun _ => 0, num_chunk_sizes := 0, schedule_types := fun _ => 0,
    num_schedule_types := 0, verbose := 0, test_all := 0 }

/-- How a call of `parse_arguments` ends: it returns a code and leaves a configuration, or
the process exits (`-h`). -/
inductive parse_outcome where
  | returned (code : Int) (config : config_t)
  | exited (status : Int)

/-- The `while ((c = getopt_long(...)) != -1) switch (c)` loop of `parse_arguments`.  The
command line is given as the successive results of `getopt_long`: the option character
`c` it returns (`'d'` for `--schedule`, `'?'` for an option it does not know) with the
`optarg` it sets. -/
def parse_arguments_loop : List (Char × List Char) → config_t → parse_outcome
  | [], config => parse_outcome.returned 0 config
  | (c, optarg) :: rest, config =>
    if c = 's' then
      parse_arguments_loop rest
        { config with
          sizes := (parse_comma_separated optarg config.sizes).1
          num_sizes := (parse_comma_separated optarg config.sizes).2 }
    else if c = 't' then
      parse_arguments_loop rest
        { config with
          threads := (parse_comma_separated optarg config.threads).1
          num_threads := (parse_comma_separated optarg config.threads).2 }
    else if c = 'c' then
      parse_arguments_loop rest
        { config with
          chunk_sizes := (parse_comma_separated optarg config.chunk_sizes).1
          num_chunk_sizes := (parse_comma_separated optarg config.chunk_sizes).2 }
    else if c = 'd' then
      parse_arguments_loop rest
        { config with
          schedule_types :=
            (parse_schedule_loop (strtok_comma optarg []) config.schedule_types 0).1
          num_schedule_types :=
            (parse_schedule_loop (strtok_comma optarg []) config.schedule_types 0).2 }
    else if c = 'a' then parse_arguments_loop rest { config with test_all := 1 }
    else if c = 'v' then parse_arguments_loop rest { config with verbose := 1 }
    else if c = 'h' then parse_outcome.exited 0
    else parse_outcome.returned (-1) config

/-- The function `parse_arguments(argc, argv, config)`. -/
def parse_arguments (opts : List (Char × List Char)) (config : config_t) : parse_outcome :=
  parse_arguments_loop opts (init_default_config config)

/-- What the runner does that can be observed: text on `stdout`, text on `stderr`, a call
`print_usage(argv[0])`, and a call
`run_experiment(n, num_threads, chunk_size, schedule_type, verbose)`. -/
inductive event where
  | stdout (text : String)
  | stderr (text : String)
  | print_usage
  | run_experiment (n num_threads chunk_size schedule_type verbose : Int)
  deriving DecidableEq

/-- The function `run_comprehensive_test(config)`: the events in order.  A `%d` is
rendered by `toString`. -/
def run_comprehensive_test (config : config_t) : List event :=
  (if config.verbose ≠ 0 then
    [event.stdout "=== Comprehensive Parallel Matrix Multiplication Test ===\n",
     event.stdout "Matrix sizes: "] ++
    for_loop 0 config.num_sizes (fun i out =>
      out ++ [event.stdout (toString (config.sizes i) ++ " ")]) [] ++
    [event.stdout "\nThread counts: "] ++
    for_loop 0 config.num_threads (fun i out =>
      out ++ [event.stdout (toString (config.threads i) ++ " ")]) [] ++
    [event.stdout "\nChunk sizes: "] ++
    for_loop 0 config.num_chunk_sizes (fun i out =>
      out ++ [event.stdout (toString (config.chunk_sizes i) ++ " ")]) [] ++
    [event.stdout "\nSchedule types: "] ++
    for_loop 0 config.num_schedule_types (fun i out =>
      out ++ [event.stdout
        ((if config.schedule_types i = 0 then "static" else "dynamic") ++ " ")]) [] ++
    [event.stdout "\n\n"]
  else [event.stdout "size,threads,chunk,schedule,time\n"]) ++
  for_loop 0 config.num_sizes (fun s out =>
    let size := config.sizes s
    let out := if config.verbose ≠ 0 then
        out ++ [event.stdout
          ("--- Matrix Size: " ++ toString size ++ "x" ++ toString size ++ " ---\n")]
      else out
    for_loop 0 config.num_schedule_types (fun sch out =>
      let schedule_type := config.schedule_types sch
      let out := if config.verbose ≠ 0 then
          out ++ [event.stdout
            ("Schedule: " ++ (if schedule_type = 0 then "Static" else "Dynamic") ++ "\n")]
        else out
      for_loop 0 config.num_chunk_sizes (fun c out =>
        let chunk := config.chunk_sizes c
        let out := if config.verbose ≠ 0 then
            out ++ [event.stdout ("  Chunk Size: " ++ toString chunk ++ "\n")]
          else out
        let out := for_loop 0 config.num_threads (fun t out =>
          out ++ [event.run_experiment size (config.threads t) chunk schedule_type
            config.verbose]) out
        if config.verbose ≠ 0 then out ++ [event.stdout "\n"] else out) out) out) []

/-- The function `run_quick_test(config)`: the events in order. -/
def run_quick_test (config : config_t) : List event :=
  (if config.verbose ≠ 0 then
    [event.stdout "=== Quick Parallel Matrix Multiplication Test ===\n",
     event.stdout "Testing basic configurations...\n\n"]
  else [event.stdout "size,threads,chunk,schedule,time\n"]) ++
  for_loop 0 config.num_sizes (fun s out =>
    let size := config.sizes s
    for_loop 0 config.num_threads (fun t out =>
      out ++ [event.run_experiment size (config.threads t) 16 0 config.verbose]) out) []

/-- The calls of `run_experiment` among the events, in order, as
`(n, num_threads, chunk_size, schedule_type)`. -/
def experiments : List event → List (Int × Int × Int × Int)
  | [] => []
  | event.run_experiment n num_threads chunk_size schedule_type _ :: rest =>
    (n, num_threads, chunk_size, schedule_type) :: experiments rest
  | _ :: rest => experiments rest

/-- The function `main(argc, argv)`: the events and the exit status.  `config` is what the
local variable `config` holds before it is initialised. -/
def main (opts : List (Char × List Char)) (config : config_t) : List event × Int :=
  match parse_arguments opts config with
  | parse_outcome.returned code config =>
    if code ≠ 0 then ([event.stderr "Error parsing arguments. Use -h for help.\n"], 1)
    else if config.test_all ≠ 0 then (run_comprehensive_test config, 0)
    else (run_quick_test config, 0)
  | parse_outcome.exited status => ([event.print_usage], status)

end matrix_mult

namespace matrix_mult

/-- The index tuples `(s, sch, c, t)` below the four counts, in the order of four nested
loops over `s`, `sch`, `c` and `t`, outermost first. -/
def sweep_indices (num_sizes num_schedule_types num_chunk_sizes num_threads : Nat) :
    List (Nat × Nat × Nat × Nat) :=
  (List.range num_sizes).flatMap (fun s =>
    (List.range num_schedule_types).flatMap (fun sch =>
      (List.range num_chunk_sizes).flatMap (fun c =>
        (List.range num_threads).map (fun t => (s, sch, c, t)))))

end matrix_mult

namespace matrix_mult

/-- The non-empty comma-separated tokens of a string, in the words of the specification:
the pieces between the commas, without the empty ones. -/
def comma_tokens_spec (str : List Char) : List (List Char) :=
  (List.splitOn ',' str).filter (fun piece => piece ≠ [])

end matrix_mult

namespace lab2

/-- The array `thread_counts` of the thread-scaling loop of `main`. -/
def thread_counts : List Nat := [1, 2, 4, 8, 16]

/-- The value `single_thread_time = (t == 0) ? red_time : 0` of the thread-scaling loop, for
the loop index `t` and the reduction time `red_time` measured in that iteration. -/
def single_thread_time (t : Nat) (red_time : ℚ) : ℚ :=
  if t = 0 then red_time else 0

/-- The value `speedup = (t == 0) ? 1.0 : single_thread_time / red_time` of the
thread-scaling loop, over the rationals; `none` when the division is by zero. -/
def scaling_speedup (t : Nat) (red_time : ℚ) : Option ℚ :=
  if t = 0 then some 1
  else if red_time = 0 then none
  else some (single_thread_time t red_time / red_time)

/-- The thread-scaling loop `for (int t = 0; t < num_threads; t++)` of `main`: for every
entry the thread count, the reduction time measured with it (`red_time t` stands for the
measurement of iteration `t`) and the speedup printed in the last column. -/
def scaling_table (red_time : Nat → ℚ) : List (Nat × ℚ × Option ℚ) :=
  for_loop 0 thread_counts.length (fun t out =>
    out ++ [(thread_counts.getD t 0, red_time t, scaling_speedup t (red_time t))]) []

end lab2

namespace lab3_primes

/-- The loop `for (int i = 3; i <= limit; i += 2) if (n % i == 0) return 0;` of `is_prime`
from the value `i`, followed by `return 1`. -/
def is_prime_loop (n limit i : Nat) : Int :=
  if i ≤ limit then
    if n % i = 0 then 0 else is_prime_loop n limit (i + 2)
  else 1
termination_by limit + 1 - i
decreasing_by omega

/-- The function `is_prime(n)`.  `limit = (int)sqrt(n)` is the integer floor of the square
root; past the test `n < 2` the number is not negative and the loop works on it as a
natural number. -/
def is_prime (n : Int) : Int :=
  if n < 2 then 0
  else if n = 2 then 1
  else if n % 2 = 0 then 0
  else is_prime_loop n.toNat (Nat.sqrt n.toNat) 3

end lab3_primes

theorem wrap_eq (x : Int) (h1 : -2147483648 ≤ x) (h2 : x ≤ 2147483647) : wrap x = x := by
  unfold wrap
  omega

namespace matrix_mult

section kernel_lemmas

variable {α : Type} [Zero α] [Add α] [Mul α]

theorem for_loop_zero_eq_foldl {σ : Type} (n : Nat) (body : Nat → σ → σ) (s : σ) :
    for_loop 0 n body s = (List.range n).foldl (fun s i => body i s) s := by
  simp [for_loop, List.range_eq_range']

end kernel_lemmas

section region_lemmas

variable {α : Type} [Zero α] [Add α] [Mul α]

end region_lemmas

end matrix_mult

namespace matrix_mult

theorem tile_stride_le (W c : Nat) (sched : Int) (hW : 1 ≤ W) :
    tile_stride W c sched ≤ W * c := by
  unfold tile_stride
  split_ifs
  · exact le_refl _
  · exact Nat.le_mul_of_pos_left c (by omega)

theorem tile_base_add_le (W c : Nat) (sched : Int) (t : Nat) (ht : t < W) :
    tile_base c sched t + c ≤ tile_stride W c sched := by
  unfold tile_base tile_stride
  split_ifs
  · have : (t + 1) * c ≤ W * c := Nat.mul_le_mul_right c (by omega)
    rw [Nat.succ_mul] at this
    exact this
  · omega

theorem wf_init {α : Type} [Zero α] [Add α] [Mul α] (n W c : Nat) (sched : Int)
    (A B : Mat α) (t : Nat) (ht : t < W)
    (hc : 1 ≤ c) (hr : n + W * c ≤ 2147483647) :
    wf n W c sched t (parallel_mm_init (thread_data (n : Int) W c sched A B t)) := by
  have hb := tile_base_add_le W c sched t ht
  have hs := tile_stride_le W c sched (by omega)
  unfold parallel_mm_init thread_data
  by_cases h0 : sched = 0
  · subst h0
    simp only [if_true, wf]
    refine ⟨0, ?_, by omega⟩
    have h1 : tile_base c 0 t = t * c := by simp [tile_base]
    rw [wrap_eq]
    · rw [h1]; push_cast; ring
    · have : (0 : Int) ≤ (t : Int) * c := by positivity
      omega
    · have : ((t * c : Nat) : Int) ≤ 2147483647 := by rw [← h1]; omega
      push_cast at this
      omega
  · simp only [h0, if_false, wf]
    refine ⟨0, ?_, by omega⟩
    simp [tile_base, h0]

end matrix_mult

namespace matrix_mult

theorem wrap_cast_add (a b : Nat) (h : a + b ≤ 2147483647) :
    wrap ((a : Int) + b) = ((a + b : Nat) : Int) := by
  rw [wrap_eq] <;> push_cast <;> omega

theorem wrap_cast_mul (a b : Nat) (h : a * b ≤ 2147483647) :
    wrap ((a : Int) * b) = ((a * b : Nat) : Int) := by
  have h1 : ((a * b : Nat) : Int) ≤ 2147483647 := by omega
  have h2 : (0 : Int) ≤ ((a * b : Nat) : Int) := by omega
  push_cast at h1 h2 ⊢
  rw [wrap_eq] <;> omega

/-- A step of a worker keeps its local variables those of a run without overflow. -/
theorem wf_step {α : Type} [Zero α] [Add α] [Mul α] (n W c : Nat) (sched : Int)
    (A B : Mat α) (t : Nat) (ht : t < W) (hc : 1 ≤ c) (hr : n + W * c ≤ 2147483647)
    (p : pc α) (s : Region α) (hp : wf n W c sched t p) :
    wf n W c sched t (parallel_mm_step (thread_data (n : Int) W c sched A B t) p s).1 := by
  have hb := tile_base_add_le W c sched t ht
  have hs := tile_stride_le W c sched (by omega)
  cases p with
  | outer x =>
    obtain ⟨m, hx, hm⟩ := hp
    simp only [parallel_mm_step, thread_data]
    by_cases h0 : sched = 0
    · simp only [h0, if_true]
      split_ifs with h1
      · exact ⟨m, by rw [← h0]; exact hx, h1, by simp, le_refl _, by omega, by omega⟩
      · trivial
    · simp only [h0, if_false]
      split_ifs with h1
      · trivial
      · have hxn : tile_base c sched t + m * tile_stride W c sched < n := by omega
        refine ⟨m, hx, by omega, ?_, le_refl _, by omega, by omega⟩
        rw [if_neg h0, hx, wrap_cast_add _ _ (by omega)]
        push_cast; ring
  | tile x start ii =>
    obtain ⟨m, hst, hlt, hx, h1, h2, h3⟩ := hp
    have hsn : tile_base c sched t + m * tile_stride W c sched < n := by omega
    have hw : wrap (start + (c : Int)) = start + c := by
      rw [hst, wrap_cast_add _ _ (by omega)]; push_cast; ring
    simp only [parallel_mm_step, thread_data, hw]
    split_ifs with h4 h0
    · exact ⟨m, hst, hlt, hx, h1, h4.1, h4.2, le_refl _, by omega⟩
    · have hS : tile_stride W c sched = W * c := by simp [tile_stride, h0]
      rw [if_pos h0] at hx
      refine ⟨m + 1, ?_, ?_⟩
      · rw [wrap_cast_mul _ _ (by omega), hx, hst, wrap_cast_add _ _ (by omega)]
        rw [hS, Nat.succ_mul]
        push_cast; ring
      · rw [Nat.succ_mul]; omega
    · have hS : tile_stride W c sched = c := by simp [tile_stride, h0]
      rw [if_neg h0] at hx
      refine ⟨m + 1, ?_, ?_⟩
      · rw [hx, hst, Nat.succ_mul, hS]
        push_cast; ring
      · rw [Nat.succ_mul]; omega
  | col x start ii j =>
    obtain ⟨m, hst, hlt, hx, h1, h2, h3, h4, h5⟩ := hp
    simp only [parallel_mm_step, thread_data]
    split_ifs with h6 h7
    · omega
    · exact ⟨m, hst, hlt, hx, h1, h2, h3, h4, h6, le_refl _, by omega⟩
    · exact ⟨m, hst, hlt, hx, by omega, by omega, by omega⟩
  | inner x start ii j k =>
    obtain ⟨m, hst, hlt, hx, h1, h2, h3, h4, h5, h6, h7⟩ := hp
    simp only [parallel_mm_step, thread_data]
    split_ifs with h8 h9
    · omega
    · exact ⟨m, hst, hlt, hx, h1, h2, h3, h4, h5, h6, h8⟩
    · exact ⟨m, hst, hlt, hx, h1, h2, h3, by omega, by omega⟩
  | add x start ii j k tmp =>
    obtain ⟨m, hst, hlt, hx, h1, h2, h3, h4, h5, h6, h7⟩ := hp
    simp only [parallel_mm_step, thread_data]
    exact ⟨m, hst, hlt, hx, h1, h2, h3, h4, h5, by omega, by omega⟩
  | done => trivial
  | fault => exact hp.elim

end matrix_mult

namespace matrix_mult

theorem toNat_succ_mul (x : Int) (P : Nat) (h : 0 ≤ x) :
    (x + 1).toNat * P = x.toNat * P + P := by
  have : (x + 1).toNat = x.toNat + 1 := by omega
  rw [this, Nat.succ_mul]

/-- A worker that has not returned is one step nearer to its return after a step. -/
theorem steps_left_step {α : Type} [Zero α] [Add α] [Mul α] (n W c : Nat) (sched : Int)
    (A B : Mat α) (t : Nat) (ht : t < W) (hc : 1 ≤ c) (hr : n + W * c ≤ 2147483647)
    (p : pc α) (s : Region α) (hp : wf n W c sched t p) :
    steps_left n (parallel_mm_step (thread_data (n : Int) W c sched A B t) p s).1 ≤
      steps_left n p - 1 := by
  have hb := tile_base_add_le W c sched t ht
  have hs := tile_stride_le W c sched (by omega)
  cases p with
  | outer x =>
    obtain ⟨m, hx, hm⟩ := hp
    simp only [parallel_mm_step, thread_data]
    split_ifs <;> simp only [steps_left, if_true] <;> omega
  | tile x start ii =>
    obtain ⟨m, hst, hlt, hx, h1, h2, h3⟩ := hp
    have hsn : tile_base c sched t + m * tile_stride W c sched < n := by omega
    have hw : wrap (start + (c : Int)) = start + c := by
      rw [hst, wrap_cast_add _ _ (by omega)]; push_cast; ring
    simp only [parallel_mm_step, thread_data, hw]
    by_cases h4 : ii < start + c ∧ ii < n
    · rw [if_pos h4]
      simp only [steps_left]
      have e1 := toNat_succ_mul ((n : Int) - ii - 1) (n * (2 * n + 2) + 4) (by omega)
      have e2 : (n : Int) - ii - 1 + 1 = n - ii := by ring
      rw [e2] at e1
      have e3 : ((n : Int) - 0).toNat = n := by omega
      rw [e1, e3]
      split_ifs <;> omega
    · rw [if_neg h4]
      have hne : ii ≠ start := by
        intro h; apply h4; rw [h]; omega
      have key : ∀ x' : Int, ii ≤ x' →
          ((n : Int) - x').toNat * (n * (2 * n + 2) + 4) + 2 ≤
            ((n : Int) - ii).toNat * (n * (2 * n + 2) + 4) + 3 - 1 := by
        intro x' hx'
        have : ((n : Int) - x').toNat ≤ ((n : Int) - ii).toNat := by omega
        have := Nat.mul_le_mul_right (n * (2 * n + 2) + 4) this
        omega
      split_ifs with h0
      · have hS : tile_stride W c sched = W * c := by simp [tile_stride, h0]
        rw [if_pos h0] at hx
        simp only [steps_left, if_neg hne]
        apply key
        rw [wrap_cast_mul _ _ (by omega), hx, hst, wrap_cast_add _ _ (by omega)]
        push_cast
        have : (c : Int) ≤ (W : Int) * c := by
          have := hs; rw [hS] at this
          have h5 : c ≤ W * c := by omega
          exact_mod_cast h5
        omega
      · rw [if_neg h0] at hx
        simp only [steps_left, if_neg hne]
        apply key
        omega
  | col x start ii j =>
    obtain ⟨m, hst, hlt, hx, h1, h2, h3, h4, h5⟩ := hp
    simp only [parallel_mm_step, thread_data]
    split_ifs with h6 h7
    · omega
    · simp only [steps_left]
      have e1 := toNat_succ_mul ((n : Int) - j - 1) (2 * n + 2) (by omega)
      have e2 : (n : Int) - j - 1 + 1 = n - j := by ring
      rw [e2] at e1
      have e3 : ((n : Int) - 0).toNat = n := by omega
      rw [e1, e3]
      omega
    · simp only [steps_left]
      have hne : ii + 1 ≠ start := by omega
      rw [if_neg hne]
      have e1 : ((n : Int) - j).toNat = 0 := by omega
      have e2 : (n : Int) - (ii + 1) = n - ii - 1 := by ring
      rw [e1, e2]
      omega
  | inner x start ii j k =>
    obtain ⟨m, hst, hlt, hx, h1, h2, h3, h4, h5, h6, h7⟩ := hp
    simp only [parallel_mm_step, thread_data]
    split_ifs with h8 h9
    · omega
    · simp only [steps_left]
      omega
    · simp only [steps_left]
      have e1 : ((n : Int) - k).toNat = 0 := by omega
      have e2 : (n : Int) - (j + 1) = n - j - 1 := by ring
      rw [e1, e2]
      omega
  | add x start ii j k tmp =>
    obtain ⟨m, hst, hlt, hx, h1, h2, h3, h4, h5, h6, h7⟩ := hp
    simp only [parallel_mm_step, thread_data, steps_left]
    have e1 : ((n : Int) - (k + 1)).toNat + 1 = ((n : Int) - k).toNat := by omega
    omega
  | done => simp [parallel_mm_step, steps_left]
  | fault => exact hp.elim

theorem is_done_of_steps_left_zero {α : Type} (n W c : Nat) (sched : Int) (t : Nat)
    (p : pc α) (hp : wf n W c sched t p) (h : steps_left n p = 0) : p.is_done = true := by
  cases p with
  | outer x => simp [steps_left] at h
  | tile x start ii =>
    simp only [steps_left] at h
    split_ifs at h
  | col x start ii j => simp [steps_left] at h
  | inner x start ii j k => simp [steps_left] at h
  | add x start ii j k tmp =>
    obtain ⟨m, hst, hlt, hx, h1, h2, h3, h4, h5, h6, h7⟩ := hp
    simp only [steps_left] at h
    omega
  | done => rfl
  | fault => exact hp.elim

theorem steps_left_init_le {α : Type} [Zero α] [Add α] [Mul α] (n W c : Nat) (sched : Int)
    (A B : Mat α) (t : Nat)
    (ht : t < W) (hc : 1 ≤ c) (hr : n + W * c ≤ 2147483647) :
    steps_left n (parallel_mm_init (thread_data (n : Int) W c sched A B t)) ≤ step_bound n := by
  have hwf := wf_init n W c sched A B t ht hc hr
  have key : ∀ x : Int, 0 ≤ x → ((n : Int) - x).toNat * (n * (2 * n + 2) + 4) + 2 ≤
      n * (n * (2 * n + 2) + 4) + 2 := by
    intro x hx
    have : ((n : Int) - x).toNat ≤ n := by omega
    have := Nat.mul_le_mul_right (n * (2 * n + 2) + 4) this
    omega
  unfold parallel_mm_init at hwf ⊢
  unfold step_bound
  split_ifs at hwf ⊢
  · obtain ⟨m, hx, -⟩ := hwf
    simp only [steps_left]
    exact key _ (by omega)
  · simp only [steps_left]
    exact key _ (by omega)

end matrix_mult

namespace matrix_mult

/-- A row of a tile of the worker that lies below the next tile lies in a tile up to the
current one. -/
theorem owns_lt_next (W c : Nat) (sched : Int) (t m : Nat) (r : Int)
    (ho : owns W c sched t r)
    (h : r < ((tile_base c sched t + m * tile_stride W c sched : Nat) : Int) +
      (tile_stride W c sched : Nat)) :
    r < ((tile_base c sched t + m * tile_stride W c sched : Nat) : Int) + c := by
  obtain ⟨m', h1, h2⟩ := ho
  by_cases hm : m' ≤ m
  · have := Nat.mul_le_mul_right (tile_stride W c sched) hm
    push_cast at h1 h2 h ⊢
    have h3 : ((m' * tile_stride W c sched : Nat) : Int) ≤ (m * tile_stride W c sched : Nat) := by
      exact_mod_cast this
    push_cast at h3
    omega
  · have := Nat.mul_le_mul_right (tile_stride W c sched) (by omega : m + 1 ≤ m')
    rw [Nat.succ_mul] at this
    have h3 : ((m * tile_stride W c sched + tile_stride W c sched : Nat) : Int) ≤
        (m' * tile_stride W c sched : Nat) := by exact_mod_cast this
    push_cast at h1 h2 h h3 ⊢
    omega

theorem visits_of_append {α : Type} (t : Nat) (s : Region α) (v : Int × Int) :
    visits_of t { s with visits := s.visits ++ [v] } =
      if v.1 = (t : Int) then visits_of t s ++ [v.2] else visits_of t s := by
  unfold visits_of
  simp only [List.filter_append, List.map_append]
  by_cases h : v.1 = (t : Int)
  · simp [h]
  · simp [h]

section step_shape

variable {α : Type} [Zero α] [Add α] [Mul α]

/-- Leaving a tile, a worker goes to the head of its outer loop at the first row of its
next tile. -/
theorem step_tile_exit (n W c : Nat) (sched : Int) (A B : Mat α) (t : Nat) (ht : t < W)
    (hr : n + W * c ≤ 2147483647) (x start ii : Int) (s : Region α)
    (hp : wf n W c sched t (pc.tile x start ii : pc α))
    (h : ¬ (ii < start + c ∧ ii < n)) :
    parallel_mm_step (thread_data (n : Int) W c sched A B t) (pc.tile x start ii) s =
      (pc.outer (start + (tile_stride W c sched : Nat)), s) := by
  have hb := tile_base_add_le W c sched t ht
  have hs := tile_stride_le W c sched (by omega)
  obtain ⟨m, hst, hlt, hx, h1, h2, h3⟩ := hp
  have hsn : tile_base c sched t + m * tile_stride W c sched < n := by omega
  have hw : wrap (start + (c : Int)) = start + c := by
    rw [hst, wrap_cast_add _ _ (by omega)]; push_cast; ring
  simp only [parallel_mm_step, thread_data, hw, if_neg h]
  split_ifs with h0
  · have hS : tile_stride W c sched = W * c := by simp [tile_stride, h0]
    rw [if_pos h0] at hx
    rw [wrap_cast_mul _ _ (by omega), hx, hst, wrap_cast_add _ _ (by omega), hS]
    push_cast
    rfl
  · have hS : tile_stride W c sched = c := by simp [tile_stride, h0]
    rw [if_neg h0] at hx
    rw [hx, hS]

/-- Entering a row of a tile, a worker logs the row and goes to its first column. -/
theorem step_tile_enter (n W c : Nat) (sched : Int) (A B : Mat α) (t : Nat) (ht : t < W)
    (hr : n + W * c ≤ 2147483647) (x start ii : Int) (s : Region α)
    (hp : wf n W c sched t (pc.tile x start ii : pc α))
    (h : ii < start + c ∧ ii < n) :
    parallel_mm_step (thread_data (n : Int) W c sched A B t) (pc.tile x start ii) s =
      (pc.col x start ii 0, { s with visits := s.visits ++ [((t : Int), ii)] }) := by
  have hb := tile_base_add_le W c sched t ht
  have hs := tile_stride_le W c sched (by omega)
  obtain ⟨m, hst, hlt, hx, h1, h2, h3⟩ := hp
  have hsn : tile_base c sched t + m * tile_stride W c sched < n := by omega
  have hw : wrap (start + (c : Int)) = start + c := by
    rw [hst, wrap_cast_add _ _ (by omega)]; push_cast; ring
  simp only [parallel_mm_step, thread_data, hw, if_pos h]

end step_shape

end matrix_mult

namespace matrix_mult

section visits_lemmas

variable {α : Type} [Zero α] [Add α] [Mul α]

/-- A step of worker `t'` adds to the log of visits entries of worker `t'` only. -/
theorem visits_of_step_other (n W c sched : Int) (A B : Mat α) (t t' : Nat) (h : t ≠ t')
    (p : pc α) (s : Region α) :
    visits_of t (parallel_mm_step (thread_data n W c sched A B t') p s).2 = visits_of t s := by
  have hne : ¬ ((t' : Int) = (t : Int)) := by omega
  cases p with
  | outer x =>
    simp only [parallel_mm_step, thread_data]
    split_ifs <;> rfl
  | tile x start ii =>
    simp only [parallel_mm_step, thread_data]
    split_ifs
    · rw [visits_of_append, if_neg hne]
    · rfl
    · rfl
  | col x start ii j =>
    simp only [parallel_mm_step, thread_data]
    split_ifs <;> rfl
  | inner x start ii j k =>
    simp only [parallel_mm_step, thread_data]
    split_ifs <;> rfl
  | add x start ii j k tmp => rfl
  | done => rfl
  | fault => rfl

/-- A step of worker `t` keeps its log of visits the rows of its tiles below its
position. -/
theorem visits_inv_step (n W c : Nat) (sched : Int) (A B : Mat α) (t : Nat) (ht : t < W)
    (hr : n + W * c ≤ 2147483647) (p : pc α) (s : Region α)
    (hp : wf n W c sched t p) (hv : visits_inv n W c sched t p s) :
    visits_inv n W c sched t (parallel_mm_step (thread_data (n : Int) W c sched A B t) p s).1
      (parallel_mm_step (thread_data (n : Int) W c sched A B t) p s).2 := by
  have hb := tile_base_add_le W c sched t ht
  have hs := tile_stride_le W c sched (by omega)
  obtain ⟨hv1, hv2⟩ := hv
  cases p with
  | outer x =>
    obtain ⟨m, hx, hm⟩ := hp
    simp only [parallel_mm_step, thread_data]
    split_ifs with h0 h1 h1
    · exact ⟨hv1, hv2⟩
    · refine ⟨hv1, fun r => ?_⟩
      rw [hv2 r]
      simp only [visit_pos]
      constructor <;> rintro ⟨h2, h3, h4⟩ <;> exact ⟨h2, h3, by omega⟩
    · refine ⟨hv1, fun r => ?_⟩
      show r ∈ visits_of t s ↔ _
      rw [hv2 r]
      simp only [visit_pos]
      constructor <;> rintro ⟨h2, h3, h4⟩ <;> exact ⟨h2, h3, by omega⟩
    · exact ⟨hv1, hv2⟩
  | tile x start ii =>
    have hp' := hp
    obtain ⟨m, hst, hlt, hx, h1, h2, h3⟩ := hp
    by_cases h4 : ii < start + c ∧ ii < n
    · rw [step_tile_enter n W c sched A B t ht hr x start ii s hp' h4]
      simp only [visits_inv, visits_of_append, if_true, visit_pos]
      refine ⟨?_, fun r => ?_⟩
      · rw [List.pairwise_append]
        refine ⟨hv1, List.pairwise_singleton _ _, ?_⟩
        intro a ha b hb'
        rw [List.mem_singleton] at hb'
        have := (hv2 a).1 ha
        simp only [visit_pos] at this
        omega
      · rw [List.mem_append, List.mem_singleton, hv2 r]
        simp only [visit_pos]
        constructor
        · rintro (⟨h5, h6, h7⟩ | h5)
          · exact ⟨h5, h6, by omega⟩
          · subst h5
            exact ⟨⟨m, by omega, by omega⟩, h4.2, by omega⟩
        · rintro ⟨h5, h6, h7⟩
          by_cases h8 : r = ii
          · right; exact h8
          · left; exact ⟨h5, h6, by omega⟩
    · rw [step_tile_exit n W c sched A B t ht hr x start ii s hp' h4]
      refine ⟨hv1, fun r => ?_⟩
      rw [hv2 r]
      simp only [visit_pos]
      constructor
      · rintro ⟨h5, h6, h7⟩
        have : (c : Int) ≤ (tile_stride W c sched : Nat) := by
          have := tile_base_add_le W c sched t ht
          omega
        exact ⟨h5, h6, by omega⟩
      · rintro ⟨h5, h6, h7⟩
        have := owns_lt_next W c sched t m r h5 (by rw [← hst]; exact h7)
        exact ⟨h5, h6, by omega⟩
  | col x start ii j =>
    simp only [parallel_mm_step, thread_data]
    split_ifs with h6 h7
    · obtain ⟨m, hst, hlt, hx, h1, h2, h3, h4, h5⟩ := hp
      omega
    · exact ⟨hv1, hv2⟩
    · exact ⟨hv1, hv2⟩
  | inner x start ii j k =>
    simp only [parallel_mm_step, thread_data]
    split_ifs with h8 h9
    · obtain ⟨m, hst, hlt, hx, h1, h2, h3, h4, h5, h6, h7⟩ := hp
      omega
    · exact ⟨hv1, hv2⟩
    · exact ⟨hv1, hv2⟩
  | add x start ii j k tmp => exact ⟨hv1, hv2⟩
  | done => exact ⟨hv1, hv2⟩
  | fault => exact hp.elim

/-- Without overflow, a worker enters at the head of its outer loop, at the first row of
its first tile. -/
theorem parallel_mm_init_eq (n W c : Nat) (sched : Int) (A B : Mat α) (t : Nat) (ht : t < W)
    (hr : n + W * c ≤ 2147483647) :
    parallel_mm_init (thread_data (n : Int) W c sched A B t) =
      (pc.outer ((tile_base c sched t : Nat) : Int) : pc α) := by
  have hb := tile_base_add_le W c sched t ht
  have hs := tile_stride_le W c sched (by omega)
  unfold parallel_mm_init thread_data
  by_cases h0 : sched = 0
  · have h1 : tile_base c sched t = t * c := by simp [tile_base, h0]
    simp only [h0, if_true]
    rw [wrap_cast_mul _ _ (by rw [← h1]; omega), ← h0, h1]
  · simp [h0, tile_base]

theorem visits_inv_init (n W c : Nat) (sched : Int) (A B C : Mat α) (t : Nat) (ht : t < W)
    (hr : n + W * c ≤ 2147483647) :
    visits_inv n W c sched t (parallel_mm_init (thread_data (n : Int) W c sched A B t))
      ({ C := C, visits := [], fetches := [] } : Region α) := by
  rw [parallel_mm_init_eq n W c sched A B t ht hr]
  refine ⟨by simp [visits_of], fun r => ?_⟩
  simp only [visits_of, List.filter_nil, List.map_nil, List.not_mem_nil, false_iff, visit_pos]
  rintro ⟨⟨m', h1, h2⟩, h3, h4⟩
  push_cast at h1
  have : (0 : Int) ≤ (m' : Int) * (tile_stride W c sched : Int) := by positivity
  omega

end visits_lemmas

end matrix_mult

namespace matrix_mult

/-- Row `r` lies in a tile of worker `t` exactly when `t` is `(r / c) mod W`. -/
theorem tile_owner (W c t r : Nat) (hc : 1 ≤ c) (ht : t < W) :
    (∃ m, t * c + m * W * c ≤ r ∧ r < t * c + m * W * c + c) ↔ t = (r / c) % W := by
  constructor
  · rintro ⟨m, h1, h2⟩
    have h3 : r / c = t + m * W := by
      apply Nat.div_eq_of_lt_le
      · rw [Nat.add_mul]; exact h1
      · have : (t + m * W + 1) * c = t * c + m * W * c + c := by ring
        rw [this]; exact h2
    rw [h3, Nat.add_mul_mod_self_right, Nat.mod_eq_of_lt ht]
  · intro h
    have h1 : t * c + r / c / W * W * c = (r / c) * c := by
      have := Nat.mod_add_div (r / c) W
      rw [← h] at this
      calc t * c + r / c / W * W * c = (t + W * (r / c / W)) * c := by ring
        _ = (r / c) * c := by rw [this]
    refine ⟨r / c / W, ?_, ?_⟩
    · rw [h1]
      exact Nat.div_mul_le_self r c
    · rw [h1]
      exact Nat.lt_div_mul_add (by omega)

/-- Under the static schedule the rows of worker `t` are those with `(r / c) mod W = t`. -/
theorem owns_static_iff (W c t r : Nat) (hc : 1 ≤ c) (ht : t < W) :
    owns W c 0 t (r : Int) ↔ t = (r / c) % W := by
  rw [← tile_owner W c t r hc ht]
  unfold owns tile_base tile_stride
  simp only [if_true]
  constructor
  · rintro ⟨m, h1, h2⟩
    refine ⟨m, ?_, ?_⟩
    · have : t * c + m * (W * c) ≤ r := by exact_mod_cast h1
      rw [Nat.mul_assoc]; exact this
    · have : r < t * c + m * (W * c) + c := by exact_mod_cast h2
      rw [Nat.mul_assoc]; exact this
  · rintro ⟨m, h1, h2⟩
    rw [Nat.mul_assoc] at h1 h2
    exact ⟨m, by exact_mod_cast h1, by exact_mod_cast h2⟩

/-- Under the static schedule no row lies in tiles of two workers. -/
theorem owns_static_disjoint (W c t t' : Nat) (r : Int) (hc : 1 ≤ c) (ht : t < W)
    (ht' : t' < W) (h : owns W c 0 t r) (h' : owns W c 0 t' r) : t = t' := by
  have hr : 0 ≤ r := by
    obtain ⟨m, h1, -⟩ := h
    omega
  obtain ⟨r', rfl⟩ : ∃ r' : Nat, r = r' := ⟨r.toNat, by omega⟩
  rw [owns_static_iff W c t r' hc ht] at h
  rw [owns_static_iff W c t' r' hc ht'] at h'
  omega

theorem owns_nonneg (W c : Nat) (sched : Int) (t : Nat) (r : Int) (h : owns W c sched t r) :
    0 ≤ r := by
  obtain ⟨m, h1, -⟩ := h
  omega

section content_lemmas

variable {α : Type} [Zero α] [Add α] [Mul α]

theorem dot_succ (A B : Mat α) (k i j : Nat) :
    dot A B (k + 1) i j = dot A B k i j + A i k * B k j := by
  unfold dot
  rw [List.range_succ, List.foldl_append]
  rfl

end content_lemmas

end matrix_mult

namespace matrix_mult

section content_step

variable {α : Type} [Zero α] [Add α] [Mul α]

/-- A step of worker `t` keeps the entries it has finished equal to those of the product,
as long as the entries were so before the step. -/
theorem content_inv_step (n W c : Nat) (sched : Int) (A B : Mat α) (t : Nat) (ht : t < W)
    (hr : n + W * c ≤ 2147483647) (p : pc α) (s : Region α)
    (hp : wf n W c sched t p) (hv : content_inv n W c sched A B t p s) :
    content_inv n W c sched A B t (parallel_mm_step (thread_data (n : Int) W c sched A B t) p s).1
      (parallel_mm_step (thread_data (n : Int) W c sched A B t) p s).2 := by
  have hb := tile_base_add_le W c sched t ht
  have hs := tile_stride_le W c sched (by omega)
  obtain ⟨hv1, hv2⟩ := hv
  cases p with
  | outer x =>
    obtain ⟨m, hx, hm⟩ := hp
    simp only [parallel_mm_step, thread_data]
    split_ifs with h0 h1 h1
    · exact ⟨hv1, trivial⟩
    · refine ⟨fun r j h2 h3 h4 _ => hv1 r j h2 h3 h4 ?_, trivial⟩
      simp only [content_pos]
      omega
    · refine ⟨fun r j h2 h3 h4 _ => hv1 r j h2 h3 h4 ?_, trivial⟩
      simp only [content_pos]
      omega
    · exact ⟨hv1, trivial⟩
  | tile x start ii =>
    have hp' := hp
    obtain ⟨m, hst, hlt, hx, h1, h2, h3⟩ := hp
    by_cases h4 : ii < start + c ∧ ii < n
    · rw [step_tile_enter n W c sched A B t ht hr x start ii s hp' h4]
      refine ⟨hv1, ?_⟩
      intro j' hj'
      omega
    · rw [step_tile_exit n W c sched A B t ht hr x start ii s hp' h4]
      refine ⟨fun r j h5 h6 h7 h8 => hv1 r j h5 h6 h7 ?_, trivial⟩
      simp only [content_pos] at h8 ⊢
      have := owns_lt_next W c sched t m r h5 (by rw [← hst]; exact h8)
      omega
  | col x start ii j =>
    obtain ⟨m, hst, hlt, hx, h1, h2, h3, h4, h5⟩ := hp
    simp only [parallel_mm_step, thread_data]
    split_ifs with h6 h7
    · omega
    · refine ⟨fun r j' h8 h9 h10 h11 => ?_, fun j' hj' => ?_, ?_⟩
      · simp only [content_pos] at h11
        simp only [Mat.set]
        rw [if_neg (by omega)]
        exact hv1 r j' h8 h9 h10 h11
      · simp only [Mat.set]
        rw [if_neg (by omega)]
        exact hv2 j' hj'
      · simp only [Mat.set, and_self, if_true]
        rfl
    · refine ⟨fun r j' h8 h9 h10 h11 => ?_, trivial⟩
      simp only [content_pos] at h11
      by_cases h12 : (r : Int) < ii
      · exact hv1 r j' h8 h9 h10 h12
      · have h13 : ii.toNat = r := by omega
        have := hv2 j' (by omega)
        rw [h13] at this
        exact this
  | inner x start ii j k =>
    obtain ⟨m, hst, hlt, hx, h1, h2, h3, h4, h5, h6, h7⟩ := hp
    simp only [parallel_mm_step, thread_data]
    split_ifs with h8 h9
    · omega
    · exact ⟨hv1, hv2.1, hv2.2⟩
    · refine ⟨hv1, fun j' hj' => ?_⟩
      by_cases h10 : (j' : Int) < j
      · exact hv2.1 j' h10
      · have h11 : j.toNat = j' := by omega
        have h12 : k.toNat = n := by omega
        have := hv2.2
        rw [h11, h12] at this
        exact this
  | add x start ii j k tmp =>
    obtain ⟨m, hst, hlt, hx, h1, h2, h3, h4, h5, h6, h7⟩ := hp
    simp only [parallel_mm_step, thread_data]
    refine ⟨fun r j' h8 h9 h10 h11 => ?_, fun j' hj' => ?_, ?_⟩
    · simp only [content_pos] at h11
      simp only [Mat.set]
      rw [if_neg (by omega)]
      exact hv1 r j' h8 h9 h10 h11
    · simp only [Mat.set]
      rw [if_neg (by omega)]
      exact hv2.1 j' hj'
    · simp only [Mat.set, and_self, if_true]
      have h12 : (k + 1).toNat = k.toNat + 1 := by omega
      rw [h12, dot_succ, hv2.2]
  | done => exact ⟨hv1, trivial⟩
  | fault => exact hp.elim

/-- The current row of a worker, when it has one, lies in one of its tiles. -/
theorem wf_owns_row (n W c : Nat) (sched : Int) (t : Nat) (p : pc α)
    (hp : wf n W c sched t p) (x start ii : Int)
    (h : (∃ j, p = pc.col x start ii j) ∨
      (∃ j k, p = pc.inner x start ii j k) ∨ (∃ j k tmp, p = pc.add x start ii j k tmp)) :
    owns W c sched t ii := by
  rcases h with ⟨j, rfl⟩ | ⟨j, k, rfl⟩ | ⟨j, k, tmp, rfl⟩
  · obtain ⟨m, hst, hlt, hx, h1, h2, h3, h4, h5⟩ := hp
    exact ⟨m, by omega, by omega⟩
  · obtain ⟨m, hst, hlt, hx, h1, h2, h3, h4, h5, h6, h7⟩ := hp
    exact ⟨m, by omega, by omega⟩
  · obtain ⟨m, hst, hlt, hx, h1, h2, h3, h4, h5, h6, h7⟩ := hp
    exact ⟨m, by omega, by omega⟩

/-- A step of worker `t` changes entries of `C` in rows of its tiles only. -/
theorem step_C_owned (n W c : Nat) (sched : Int) (A B : Mat α) (t : Nat)
    (p : pc α) (s : Region α) (hp : wf n W c sched t p) (r j : Nat)
    (h : ¬ owns W c sched t (r : Int)) :
    (parallel_mm_step (thread_data (n : Int) W c sched A B t) p s).2.C r j = s.C r j := by
  cases p with
  | outer x =>
    simp only [parallel_mm_step]
    split_ifs <;> rfl
  | tile x start ii =>
    simp only [parallel_mm_step]
    split_ifs <;> rfl
  | col x start ii j' =>
    have ho := wf_owns_row n W c sched t _ hp x start ii (Or.inl ⟨j', rfl⟩)
    have h0 := owns_nonneg W c sched t ii ho
    have hne : ¬ (r = ii.toNat) := by
      intro hh
      apply h
      rw [hh, Int.toNat_of_nonneg h0]
      exact ho
    simp only [parallel_mm_step]
    split_ifs
    · rfl
    · simp only [Mat.set]
      rw [if_neg (fun hh => hne hh.1)]
    · rfl
  | inner x start ii j' k =>
    simp only [parallel_mm_step]
    split_ifs <;> rfl
  | add x start ii j' k tmp =>
    have ho := wf_owns_row n W c sched t _ hp x start ii (Or.inr (Or.inr ⟨j', k, tmp, rfl⟩))
    have h0 := owns_nonneg W c sched t ii ho
    have hne : ¬ (r = ii.toNat) := by
      intro hh
      apply h
      rw [hh, Int.toNat_of_nonneg h0]
      exact ho
    simp only [parallel_mm_step, Mat.set]
    rw [if_neg (fun hh => hne hh.1)]
  | done => rfl
  | fault => rfl

/-- Under the static schedule a step of another worker leaves the entries a worker has
finished as they are. -/
theorem content_inv_other (n W c : Nat) (A B : Mat α) (t t' : Nat) (ht : t < W)
    (ht' : t' < W) (hc : 1 ≤ c) (hne : t ≠ t') (p p' : pc α) (s : Region α)
    (hp : wf n W c 0 t p) (hp' : wf n W c 0 t' p')
    (hv : content_inv n W c 0 A B t p s) :
    content_inv n W c 0 A B t p (parallel_mm_step (thread_data (n : Int) W c 0 A B t') p' s).2 := by
  have key : ∀ (r : Int) (j : Nat), owns W c 0 t r →
      (parallel_mm_step (thread_data (n : Int) W c 0 A B t') p' s).2.C r.toNat j =
        s.C r.toNat j := by
    intro r j ho
    apply step_C_owned n W c 0 A B t' p' s hp'
    intro ho'
    have h0 := owns_nonneg W c 0 t r ho
    rw [Int.toNat_of_nonneg h0] at ho'
    exact hne (owns_static_disjoint W c t t' r hc ht ht' ho ho')
  obtain ⟨hv1, hv2⟩ := hv
  refine ⟨fun r j h1 h2 h3 h4 => ?_, ?_⟩
  · have := key r j h1
    simp only [Int.toNat_ofNat] at this
    rw [this]
    exact hv1 r j h1 h2 h3 h4
  · cases p with
    | outer x => trivial
    | tile x start ii => trivial
    | col x start ii j =>
      have ho := wf_owns_row n W c 0 t _ hp x start ii (Or.inl ⟨j, rfl⟩)
      intro j' hj'
      show (parallel_mm_step (thread_data (n : Int) W c 0 A B t') p' s).2.C ii.toNat j' = _
      rw [key ii j' ho]
      exact hv2 j' hj'
    | inner x start ii j k =>
      have ho := wf_owns_row n W c 0 t _ hp x start ii (Or.inr (Or.inl ⟨j, k, rfl⟩))
      refine ⟨fun j' hj' => ?_, ?_⟩
      · show (parallel_mm_step (thread_data (n : Int) W c 0 A B t') p' s).2.C ii.toNat j' = _
        rw [key ii j' ho]
        exact hv2.1 j' hj'
      · show (parallel_mm_step (thread_data (n : Int) W c 0 A B t') p' s).2.C ii.toNat j.toNat = _
        rw [key ii _ ho]
        exact hv2.2
    | add x start ii j k tmp =>
      have ho := wf_owns_row n W c 0 t _ hp x start ii (Or.inr (Or.inr ⟨j, k, tmp, rfl⟩))
      refine ⟨fun j' hj' => ?_, hv2.2⟩
      show (parallel_mm_step (thread_data (n : Int) W c 0 A B t') p' s).2.C ii.toNat j' = _
      rw [key ii j' ho]
      exact hv2.1 j' hj'
    | done => trivial
    | fault => trivial

theorem content_inv_init (n W c : Nat) (sched : Int) (A B C : Mat α) (t : Nat) (ht : t < W)
    (hr : n + W * c ≤ 2147483647) :
    content_inv n W c sched A B t (parallel_mm_init (thread_data (n : Int) W c sched A B t))
      ({ C := C, visits := [], fetches := [] } : Region α) := by
  rw [parallel_mm_init_eq n W c sched A B t ht hr]
  refine ⟨fun r j h1 h2 h3 h4 => ?_, trivial⟩
  exfalso
  simp only [content_pos] at h4
  obtain ⟨m', h5, h6⟩ := h1
  push_cast at h5
  have : (0 : Int) ≤ (m' : Int) * (tile_stride W c sched : Int) := by positivity
  omega

end content_step

end matrix_mult

namespace matrix_mult

section fetch_lemmas

variable {α : Type} [Zero α] [Add α] [Mul α]

theorem fetch_count_append (t : Nat) (s : Region α) (u : Int) :
    fetch_count t { s with fetches := s.fetches ++ [u] } =
      fetch_count t s + (if u = (t : Int) then 1 else 0) := by
  unfold fetch_count
  rw [List.count_append]
  by_cases h : u = (t : Int)
  · simp [h]
  · have h2 : ¬ ((t : Int) = u) := fun hh => h hh.symm
    simp [h, List.count_cons, h2]

/-- A step of worker `t'` adds to the log of fetches entries of worker `t'` only. -/
theorem fetch_count_step_other (n W c sched : Int) (A B : Mat α) (t t' : Nat) (h : t ≠ t')
    (p : pc α) (s : Region α) :
    fetch_count t (parallel_mm_step (thread_data n W c sched A B t') p s).2 = fetch_count t s := by
  have hne : ¬ ((t' : Int) = (t : Int)) := by omega
  cases p with
  | outer x =>
    simp only [parallel_mm_step, thread_data]
    split_ifs
    · rfl
    · rfl
    · rw [fetch_count_append, if_neg hne]; rfl
    · rw [fetch_count_append, if_neg hne]; rfl
  | tile x start ii =>
    simp only [parallel_mm_step, thread_data]
    split_ifs <;> rfl
  | col x start ii j =>
    simp only [parallel_mm_step, thread_data]
    split_ifs <;> rfl
  | inner x start ii j k =>
    simp only [parallel_mm_step, thread_data]
    split_ifs <;> rfl
  | add x start ii j k tmp => rfl
  | done => rfl
  | fault => rfl

/-- Under the dynamic schedule a step of worker `t` keeps its fetches counted by its
`next_row`. -/
theorem fetch_inv_step (n W c : Nat) (sched : Int) (A B : Mat α) (t : Nat) (ht : t < W)
    (hr : n + W * c ≤ 2147483647) (h0 : sched ≠ 0) (p : pc α) (s : Region α)
    (hp : wf n W c sched t p) (hv : fetch_inv n c t p s) :
    fetch_inv n c t (parallel_mm_step (thread_data (n : Int) W c sched A B t) p s).1
      (parallel_mm_step (thread_data (n : Int) W c sched A B t) p s).2 := by
  have hb := tile_base_add_le W c sched t ht
  have hs := tile_stride_le W c sched (by omega)
  have hB : tile_base c sched t = 0 := by simp [tile_base, h0]
  have hS : tile_stride W c sched = c := by simp [tile_stride, h0]
  cases p with
  | outer x =>
    obtain ⟨m, hx, hm⟩ := hp
    rw [hB, hS] at hx hm
    simp only [fetch_inv] at hv
    simp only [parallel_mm_step, thread_data, if_neg h0]
    split_ifs with h1
    · simp only [fetch_inv, fetch_count_append, if_true]
      have hk : fetch_count t s * c = 0 + m * c := by
        have := hv.trans hx
        exact_mod_cast this
      have h2 : n ≤ 0 + m * c := by
        rw [hx] at h1
        exact_mod_cast h1
      have h3 : (n + c - 1) / c = fetch_count t s := by
        apply Nat.div_eq_of_lt_le
        · omega
        · rw [Nat.succ_mul]; omega
      rw [h3]
    · simp only [fetch_inv, fetch_count_append, if_true]
      rw [hx, wrap_cast_add _ _ (by omega)]
      rw [hx] at hv
      push_cast at hv ⊢
      rw [add_mul, hv]
      ring
  | tile x start ii =>
    have hp' := hp
    obtain ⟨m, hst, hlt, hx, h1, h2, h3⟩ := hp
    rw [if_neg h0] at hx
    by_cases h4 : ii < start + c ∧ ii < n
    · rw [step_tile_enter n W c sched A B t ht hr x start ii s hp' h4]
      exact hv
    · rw [step_tile_exit n W c sched A B t ht hr x start ii s hp' h4, hS]
      simp only [fetch_inv] at hv ⊢
      rw [hv, hx]
  | col x start ii j =>
    simp only [parallel_mm_step, thread_data]
    split_ifs with h6 h7
    · obtain ⟨m, hst, hlt, hx, h1, h2, h3, h4, h5⟩ := hp
      omega
    · exact hv
    · exact hv
  | inner x start ii j k =>
    simp only [parallel_mm_step, thread_data]
    split_ifs with h8 h9
    · obtain ⟨m, hst, hlt, hx, h1, h2, h3, h4, h5, h6, h7⟩ := hp
      omega
    · exact hv
    · exact hv
  | add x start ii j k tmp => exact hv
  | done => exact hv
  | fault => exact hp.elim

theorem fetch_inv_other (n W c sched : Int) (n' c' : Nat) (A B : Mat α) (t t' : Nat)
    (h : t ≠ t') (p p' : pc α) (s : Region α) (hv : fetch_inv n' c' t p s) :
    fetch_inv n' c' t p (parallel_mm_step (thread_data n W c sched A B t') p' s).2 := by
  have := fetch_count_step_other n W c sched A B t t' h p' s
  cases p <;> simp only [fetch_inv] at hv ⊢ <;> rw [this] <;> exact hv

theorem visits_inv_other (n W c sched : Int) (n' W' c' : Nat) (sched' : Int) (A B : Mat α)
    (t t' : Nat) (h : t ≠ t') (p p' : pc α) (s : Region α)
    (hv : visits_inv n' W' c' sched' t p s) :
    visits_inv n' W' c' sched' t p (parallel_mm_step (thread_data n W c sched A B t') p' s).2 := by
  unfold visits_inv at hv ⊢
  rw [visits_of_step_other n W c sched A B t t' h p' s]
  exact hv

/-- The log of visits after a step of a worker is the log before it, or that log with
one visit of this worker added. -/
theorem step_visits (d : thread_data_t α) (p : pc α) (s : Region α) :
    (parallel_mm_step d p s).2.visits = s.visits ∨
      ∃ r, (parallel_mm_step d p s).2.visits = s.visits ++ [(d.thread_id, r)] := by
  cases p with
  | outer x =>
    simp only [parallel_mm_step]
    split_ifs <;> exact Or.inl rfl
  | tile x start ii =>
    simp only [parallel_mm_step]
    split_ifs
    · exact Or.inr ⟨ii, rfl⟩
    · exact Or.inl rfl
    · exact Or.inl rfl
  | col x start ii j =>
    simp only [parallel_mm_step]
    split_ifs <;> exact Or.inl rfl
  | inner x start ii j k =>
    simp only [parallel_mm_step]
    split_ifs <;> exact Or.inl rfl
  | add x start ii j k tmp => exact Or.inl rfl
  | done => exact Or.inl rfl
  | fault => exact Or.inl rfl

end fetch_lemmas

section pool_lemmas

variable {α : Type} [Zero α] [Add α] [Mul α]

/-- What every step of the pool keeps holds after every run. -/
theorem run_threads_induction (n W c sched : Int) (A B : Mat α) (I : Pool α → Prop)
    (hstep : ∀ P t, I P → I (pool_step n W c sched A B P t)) (schedule : List Nat)
    (P : Pool α) (h : I P) : I (run_threads n W c sched A B schedule P) := by
  induction schedule generalizing P with
  | nil => exact h
  | cons t rest ih => exact ih _ (hstep P t h)

theorem pool_inv_init (n W c : Nat) (sched : Int) (A B C : Mat α) (hc : 1 ≤ c)
    (hr : n + W * c ≤ 2147483647) :
    pool_inv n W c sched A B (pool_init (n : Int) W c sched A B C) := by
  refine ⟨fun t ht => ⟨wf_init n W c sched A B t ht hc hr,
    visits_inv_init n W c sched A B C t ht hr,
    fun _ => content_inv_init n W c sched A B C t ht hr, fun h0 => ?_⟩, ?_⟩
  · show fetch_inv n c t (parallel_mm_init (thread_data (n : Int) W c sched A B t)) _
    rw [parallel_mm_init_eq n W c sched A B t ht hr]
    simp [fetch_inv, fetch_count, tile_base, h0, pool_init]
  · intro v hv
    simp [pool_init] at hv

theorem pool_inv_step (n W c : Nat) (sched : Int) (A B : Mat α) (hc : 1 ≤ c)
    (hr : n + W * c ≤ 2147483647) (P : Pool α) (t0 : Nat)
    (h : pool_inv n W c sched A B P) :
    pool_inv n W c sched A B (pool_step (n : Int) W c sched A B P t0) := by
  unfold pool_step
  split_ifs with h0
  · have ht0 : t0 < W := by exact_mod_cast h0
    obtain ⟨h1, h2⟩ := h
    obtain ⟨hw0, hv0, hc0, hf0⟩ := h1 t0 ht0
    refine ⟨fun t ht => ?_, ?_⟩
    · by_cases hte : t = t0
      · subst hte
        simp only [Function.update_same]
        exact ⟨wf_step n W c sched A B t ht hc hr _ _ hw0,
          visits_inv_step n W c sched A B t ht hr _ _ hw0 hv0,
          fun hs => content_inv_step n W c sched A B t ht hr _ _ hw0 (hc0 hs),
          fun hs => fetch_inv_step n W c sched A B t ht hr hs _ _ hw0 (hf0 hs)⟩
      · obtain ⟨hw, hv, hcc, hf⟩ := h1 t ht
        simp only [Function.update_noteq hte]
        refine ⟨hw, visits_inv_other _ _ _ _ n W c sched A B t t0 hte _ _ _ hv, fun hs => ?_,
          fun hs => fetch_inv_other _ _ _ _ n c A B t t0 hte _ _ _ (hf hs)⟩
        rcases hs with hs | hs
        · subst hs
          exact content_inv_other n W c A B t t0 ht ht0 hc hte _ _ _ hw hw0 (hcc (Or.inl rfl))
        · omega
    · intro v hv
      rcases step_visits (thread_data (n : Int) W c sched A B t0) (P.pcs t0) P.mem with
        h3 | ⟨r, h3⟩
      · rw [h3] at hv
        exact h2 v hv
      · rw [h3, List.mem_append, List.mem_singleton] at hv
        rcases hv with hv | hv
        · exact h2 v hv
        · exact ⟨t0, ht0, by rw [hv]; rfl⟩
  · exact h

/-- Without overflow the invariant of the pool holds after every interleaving. -/
theorem run_threads_pool_inv (n W c : Nat) (sched : Int) (A B C : Mat α) (hc : 1 ≤ c)
    (hr : n + W * c ≤ 2147483647) (schedule : List Nat) :
    pool_inv n W c sched A B
      (run_threads (n : Int) W c sched A B schedule (pool_init (n : Int) W c sched A B C)) :=
  run_threads_induction _ _ _ _ A B (pool_inv n W c sched A B)
    (fun P t h => pool_inv_step n W c sched A B hc hr P t h) schedule _
    (pool_inv_init n W c sched A B C hc hr)

/-- Every step a worker takes brings it one step nearer to its return. -/
theorem run_threads_steps_left (n W c : Nat) (sched : Int) (A B : Mat α) (hc : 1 ≤ c)
    (hr : n + W * c ≤ 2147483647) (schedule : List Nat) (P : Pool α)
    (h : pool_inv n W c sched A B P) (t : Nat) (ht : t < W) :
    steps_left n ((run_threads (n : Int) W c sched A B schedule P).pcs t) ≤
      steps_left n (P.pcs t) - schedule.count t := by
  induction schedule generalizing P with
  | nil => simp [run_threads]
  | cons t0 rest ih =>
    have h1 := ih (pool_step (n : Int) W c sched A B P t0)
      (pool_inv_step n W c sched A B hc hr P t0 h)
    have h2 : steps_left n ((pool_step (n : Int) W c sched A B P t0).pcs t) ≤
        steps_left n (P.pcs t) - (if t0 = t then 1 else 0) := by
      unfold pool_step
      by_cases hte : t0 = t
      · subst hte
        have h0 : (t0 : Int) < (W : Int) := by exact_mod_cast ht
        simp only [if_pos h0, Function.update_same, if_true]
        exact steps_left_step n W c sched A B t0 ht hc hr _ _ (h.1 t0 ht).1
      · split_ifs with h0
        · simp only [Function.update_noteq (Ne.symm hte)]
          omega
        · omega
    have h3 : (t0 :: rest).count t = rest.count t + (if t0 = t then 1 else 0) := by
      rw [List.count_cons]
      by_cases hte : t0 = t
      · simp [hte]
      · simp [hte]
    have h4 : run_threads (n : Int) W c sched A B (t0 :: rest) P =
        run_threads (n : Int) W c sched A B rest (pool_step (n : Int) W c sched A B P t0) :=
      rfl
    rw [h4, h3]
    omega

theorem is_done_iff (p : pc α) : p.is_done = true ↔ p = pc.done := by
  cases p <;> simp [pc.is_done]

theorem joined_iff (W : Nat) (P : Pool α) :
    joined (W : Int) P = true ↔ ∀ t, t < W → P.pcs t = pc.done := by
  unfold joined
  simp only [Int.toNat_ofNat, List.all_eq_true, List.mem_range, is_done_iff]

end pool_lemmas

end matrix_mult

namespace matrix_mult

theorem wrap_zero : wrap 0 = 0 := by
  unfold wrap
  norm_num

section stuck_lemmas

variable {α : Type} [Zero α] [Add α] [Mul α]

/-- When the stride of the static loop is 0 after reduction to 32 bits, or the chunk of
the dynamic loop is 0, a worker whose outer row index is 0 keeps it at 0 and does not
return. -/
theorem stuck_step (d : thread_data_t α) (hn : 0 < d.n)
    (h0 : d.schedule_type = 0 → wrap (d.num_threads * d.chunk_size) = 0)
    (h1 : d.schedule_type ≠ 0 → d.chunk_size = 0) (p : pc α) (s : Region α)
    (hp : stuck p) : stuck (parallel_mm_step d p s).1 := by
  cases p with
  | outer x =>
    simp only [stuck] at hp
    subst hp
    simp only [parallel_mm_step]
    split_ifs with h2 h3
    · exact ⟨rfl, rfl, le_refl _⟩
    · exact absurd hn (not_lt.2 h3)
    · rw [h1 h2]
      exact ⟨by simp [wrap_zero], rfl, le_refl _⟩
  | tile x start ii =>
    obtain ⟨hx, hst, hii⟩ := hp
    subst hx hst
    simp only [parallel_mm_step]
    split_ifs with h2 h3
    · exact ⟨rfl, rfl, hii⟩
    · show wrap (0 + wrap (d.num_threads * d.chunk_size)) = 0
      rw [h0 h3]
      simp [wrap_zero]
    · rfl
  | col x start ii j =>
    obtain ⟨hx, hst, hii⟩ := hp
    simp only [parallel_mm_step]
    split_ifs with h2 h3
    · omega
    · exact ⟨hx, hst, hii⟩
    · exact ⟨hx, hst, by omega⟩
  | inner x start ii j k =>
    obtain ⟨hx, hst, hii⟩ := hp
    simp only [parallel_mm_step]
    split_ifs with h2 h3
    · omega
    · exact ⟨hx, hst, hii⟩
    · exact ⟨hx, hst, hii⟩
  | add x start ii j k tmp => exact hp
  | done => exact hp.elim
  | fault => exact hp.elim

theorem stuck_not_done (p : pc α) (hp : stuck p) : p.is_done = false := by
  cases p <;> first | rfl | exact hp.elim

/-- A worker that is stuck stays so whatever the interleaving. -/
theorem run_threads_stuck (n W c sched : Int) (A B : Mat α) (hn : 0 < n)
    (h0 : sched = 0 → wrap (W * c) = 0) (h1 : sched ≠ 0 → c = 0) (t : Nat)
    (schedule : List Nat) (P : Pool α) (hp : stuck (P.pcs t)) :
    stuck ((run_threads n W c sched A B schedule P).pcs t) := by
  apply run_threads_induction n W c sched A B (fun P => stuck (P.pcs t)) _ schedule P hp
  intro P t0 h
  unfold pool_step
  split_ifs with h2
  · by_cases hte : t = t0
    · subst hte
      simp only [Function.update_same]
      exact stuck_step _ hn h0 h1 _ _ h
    · simp only [Function.update_noteq hte]
      exact h
  · exact h

/-- With chunk size 0 and `n ≥ 1` no worker returns, whatever the schedule kind and the
interleaving. -/
theorem chunk_zero_never_done (n W sched : Int) (A B C : Mat α) (hn : 0 < n) (t : Nat)
    (schedule : List Nat) :
    ((run_threads n W 0 sched A B schedule (pool_init n W 0 sched A B C)).pcs t).is_done =
      false := by
  apply stuck_not_done
  apply run_threads_stuck n W 0 sched A B hn (fun _ => by simp [wrap_zero]) (fun _ => rfl)
  show stuck (parallel_mm_init (thread_data n W 0 sched A B t))
  unfold parallel_mm_init thread_data
  split_ifs
  · simp [stuck, wrap_zero]
  · simp [stuck]

/-- With 4 workers and chunk size 1073741824 the static stride is 0 in 32 bits, and
worker 0 does not return, whatever the interleaving. -/
theorem stride_overflow_never_done (n : Int) (A B C : Mat α) (hn : 0 < n)
    (schedule : List Nat) :
    ((run_threads n 4 1073741824 0 A B schedule
      (pool_init n 4 1073741824 0 A B C)).pcs 0).is_done = false := by
  apply stuck_not_done
  apply run_threads_stuck n 4 1073741824 0 A B hn (fun _ => by unfold wrap; norm_num)
    (fun h => absurd rfl h)
  show stuck (parallel_mm_init (thread_data n 4 1073741824 0 A B 0))
  unfold parallel_mm_init thread_data
  simp [stuck, wrap_zero]

theorem joined_false_of_not_done (W : Int) (P : Pool α) (t : Nat) (ht : (t : Int) < W)
    (h : (P.pcs t).is_done = false) : joined W P = false := by
  unfold joined
  rw [Bool.eq_false_iff]
  intro hall
  rw [List.all_eq_true] at hall
  have := hall t (List.mem_range.2 (by omega))
  rw [h] at this
  exact Bool.false_ne_true this

end stuck_lemmas

section count_lemmas

/-- A log whose entries are all by workers below `W` has as many entries as the workers
below `W` have together. -/
theorem length_eq_sum_filter (l : List (Int × Int)) (W : Nat)
    (h : ∀ v, v ∈ l → ∃ t, t < W ∧ v.1 = (t : Int)) :
    l.length = ∑ t in Finset.range W, (l.filter (fun v => v.1 = (t : Int))).length := by
  induction l with
  | nil => simp
  | cons v l ih =>
    obtain ⟨t0, ht0, hv⟩ := h v (List.mem_cons_self _ _)
    have ih' := ih (fun u hu => h u (List.mem_cons_of_mem _ hu))
    have h1 : ∀ t : Nat, ((v :: l).filter (fun v => v.1 = (t : Int))).length =
        (l.filter (fun v => v.1 = (t : Int))).length + (if t0 = t then 1 else 0) := by
      intro t
      rw [List.filter_cons]
      by_cases h2 : t0 = t
      · subst h2
        simp [hv]
      · have : ¬ (v.1 = (t : Int)) := by rw [hv]; omega
        simp [this, h2]
    simp only [h1, Finset.sum_add_distrib, List.length_cons]
    rw [← ih', Finset.sum_ite_eq, if_pos (Finset.mem_range.2 ht0)]

/-- A strictly increasing list of integers whose members are the integers from 0 below `n`
has `n` members. -/
theorem length_of_sorted_range (l : List Int) (n : Nat) (h1 : l.Pairwise (fun a b => a < b))
    (h2 : ∀ r, r ∈ l ↔ 0 ≤ r ∧ r < n) : l.length = n := by
  have hnd : l.Nodup := h1.imp (fun h => ne_of_lt h)
  have h3 : l.toFinset = Finset.Ico (0 : Int) n := by
    ext r
    rw [List.mem_toFinset, h2, Finset.mem_Ico]
  rw [← List.toFinset_card_of_nodup hnd, h3, Int.card_Ico]
  simp

theorem mem_visits_of {α : Type} (t : Nat) (s : Region α) (r : Int) :
    r ∈ visits_of t s ↔ ((t : Int), r) ∈ s.visits := by
  unfold visits_of
  simp only [List.mem_map, List.mem_filter, decide_eq_true_eq]
  constructor
  · rintro ⟨⟨a, b⟩, ⟨h1, h2⟩, h3⟩
    simp only at h2 h3
    subst h2 h3
    exact h1
  · intro h
    exact ⟨(t, r), ⟨h, rfl⟩, rfl⟩

/-- Under the dynamic schedule the tiles of every worker cover every row from 0 on. -/
theorem owns_dynamic_iff (W c : Nat) (sched : Int) (t : Nat) (r : Int) (hc : 1 ≤ c)
    (h0 : sched ≠ 0) : owns W c sched t r ↔ 0 ≤ r := by
  constructor
  · exact owns_nonneg W c sched t r
  · intro hr
    obtain ⟨r', rfl⟩ : ∃ r' : Nat, r = r' := ⟨r.toNat, by omega⟩
    refine ⟨r' / c, ?_, ?_⟩
    · simp only [tile_base, tile_stride, if_neg h0, Nat.zero_add]
      exact_mod_cast Nat.div_mul_le_self r' c
    · simp only [tile_base, tile_stride, if_neg h0, Nat.zero_add]
      have := Nat.lt_div_mul_add (a := r') (b := c) (by omega)
      exact_mod_cast this

end count_lemmas

end matrix_mult

namespace matrix_mult

section final_lemmas

variable {α : Type} [Zero α] [Add α] [Mul α]

/-- Without overflow a worker that takes `step_bound n` steps or more has returned,
whatever the other workers do in between. -/
theorem run_threads_done (n W c : Nat) (sched : Int) (A B C : Mat α) (hc : 1 ≤ c)
    (hr : n + W * c ≤ 2147483647) (schedule : List Nat) (t : Nat) (ht : t < W)
    (hcount : step_bound n ≤ schedule.count t) :
    (run_threads (n : Int) W c sched A B schedule
      (pool_init (n : Int) W c sched A B C)).pcs t = pc.done := by
  rw [← is_done_iff]
  have h1 := run_threads_pool_inv n W c sched A B C hc hr schedule
  have h2 := run_threads_steps_left n W c sched A B hc hr schedule _
    (pool_inv_init n W c sched A B C hc hr) t ht
  have h3 := steps_left_init_le n W c sched A B t ht hc hr
  apply is_done_of_steps_left_zero n W c sched t _ (h1.1 t ht).1
  have h5 : (pool_init (n : Int) W c sched A B C).pcs t =
      parallel_mm_init (thread_data (n : Int) W c sched A B t) := rfl
  rw [h5] at h2
  omega

/-- The log of a worker that has returned holds the rows below `n` of its tiles. -/
theorem done_visits (n W c : Nat) (sched : Int) (A B : Mat α) (P : Pool α)
    (h : pool_inv n W c sched A B P) (t : Nat) (ht : t < W) (hd : P.pcs t = pc.done)
    (r : Int) : r ∈ visits_of t P.mem ↔ owns W c sched t r ∧ r < n := by
  have h1 := (h.1 t ht).2.1.2 r
  rw [hd] at h1
  rw [h1]
  simp only [visit_pos, and_self_right]
  constructor
  · rintro ⟨h2, h3, -⟩
    exact ⟨h2, h3⟩
  · rintro ⟨h2, h3⟩
    exact ⟨h2, h3, h3⟩

/-- The rows below `n` of the tiles of a worker that has returned hold the product. -/
theorem done_content (n W c : Nat) (sched : Int) (A B : Mat α) (P : Pool α)
    (h : pool_inv n W c sched A B P) (hs : sched = 0 ∨ W = 1) (t : Nat) (ht : t < W)
    (hd : P.pcs t = pc.done) (r j : Nat) (ho : owns W c sched t r) (hr : r < n)
    (hj : j < n) : P.mem.C r j = dot A B n r j := by
  have h1 := ((h.1 t ht).2.2.1 hs).1 r j ho hr hj
  rw [hd] at h1
  exact h1 (by simp only [content_pos]; exact_mod_cast hr)

/-- Every row from 0 on lies in a tile of some worker. -/
theorem row_has_owner (W c : Nat) (sched : Int) (r : Nat) (hW : 1 ≤ W) (hc : 1 ≤ c) :
    ∃ t, t < W ∧ owns W c sched t r := by
  by_cases h0 : sched = 0
  · subst h0
    have ht : (r / c) % W < W := Nat.mod_lt _ (by omega)
    exact ⟨(r / c) % W, ht, (owns_static_iff W c _ r hc ht).2 rfl⟩
  · exact ⟨0, by omega, (owns_dynamic_iff W c sched 0 r hc h0).2 (by omega)⟩

/-- Once all workers have returned, under the static schedule or with one worker, the
`n × n` block of `C` holds the product. -/
theorem joined_content (n W c : Nat) (sched : Int) (A B : Mat α) (P : Pool α)
    (h : pool_inv n W c sched A B P) (hs : sched = 0 ∨ W = 1) (hW : 1 ≤ W) (hc : 1 ≤ c)
    (hj : joined (W : Int) P = true) (i j : Nat) (hi : i < n) (hj' : j < n) :
    P.mem.C i j = dot A B n i j := by
  rw [joined_iff] at hj
  obtain ⟨t, ht, ho⟩ := row_has_owner W c sched i hW hc
  exact done_content n W c sched A B P h hs t ht (hj t ht) i j ho hi hj'

/-- Once all workers have returned under the dynamic schedule, every worker has begun every
row below `n` once, and the log of visits has `W * n` entries. -/
theorem joined_dynamic_visits (n W c : Nat) (sched : Int) (A B : Mat α) (P : Pool α)
    (h : pool_inv n W c sched A B P) (h0 : sched ≠ 0) (hc : 1 ≤ c)
    (hj : joined (W : Int) P = true) :
    P.mem.visits.length = W * n ∧
      ∀ t r : Nat, t < W → r < n → ((t : Int), (r : Int)) ∈ P.mem.visits := by
  rw [joined_iff] at hj
  have hmem : ∀ t, t < W → ∀ r : Int, r ∈ visits_of t P.mem ↔ 0 ≤ r ∧ r < n := by
    intro t ht r
    rw [done_visits n W c sched A B P h t ht (hj t ht) r, owns_dynamic_iff W c sched t r hc h0]
  constructor
  · rw [length_eq_sum_filter P.mem.visits W h.2]
    have h1 : ∀ t, t ∈ Finset.range W →
        (P.mem.visits.filter (fun v => v.1 = (t : Int))).length = n := by
      intro t ht
      rw [Finset.mem_range] at ht
      have h2 := length_of_sorted_range (visits_of t P.mem) n (h.1 t ht).2.1.1 (hmem t ht)
      unfold visits_of at h2
      rw [List.length_map] at h2
      exact h2
    rw [Finset.sum_congr rfl h1]
    simp
  · intro t r ht hr
    rw [← mem_visits_of, hmem t ht]
    omega

theorem run_experiment_multiply_eq_some (schedule : List Nat) (n W c sched : Int)
    (A B C : Mat α) (hW : W ≠ 1) (s' : Region α) :
    run_experiment_multiply schedule n W c sched A B C = some s' ↔
      joined W (run_threads n W c sched A B schedule (pool_init n W c sched A B C)) = true ∧
        s' = (run_threads n W c sched A B schedule (pool_init n W c sched A B C)).mem := by
  unfold run_experiment_multiply
  rw [if_neg hW]
  split_ifs with h
  · simp only [Option.some.injEq, h, true_and]
    exact eq_comm
  · simp [h]

end final_lemmas

end matrix_mult

namespace matrix_mult

end matrix_mult

namespace matrix_mult

/-- C2 (counterexample): with `N = 1`, `W = 4` and chunk `1073741824` under the static
schedule, the start row `thread_id * chunk_size` of worker 2 is `-2147483648` in 32 bits:
after two steps worker 2 has begun the computation of row `-2147483648`, which is no row
of `[0, N)` and in no interval `[2*C + m*W*C, 2*C + m*W*C + C)`, and its next step is an
access outside the matrix; and the stride `num_threads * chunk_size` is 0, so that worker 0
begins row 0 a second time after 11 steps. -/
theorem static_schedule_partition_counterexample :
    wrap (2 * 1073741824) = -2147483648 ∧ wrap (4 * 1073741824) = 0 ∧
    (run_threads 1 4 1073741824 0 (fun _ _ => (1 : Int)) (fun _ _ => 1) [2, 2]
      (pool_init 1 4 1073741824 0 (fun _ _ => (1 : Int)) (fun _ _ => 1)
        (fun _ _ => 0))).mem.visits = [(2, -2147483648)] ∧
    (run_threads 1 4 1073741824 0 (fun _ _ => (1 : Int)) (fun _ _ => 1) [2, 2, 2]
      (pool_init 1 4 1073741824 0 (fun _ _ => (1 : Int)) (fun _ _ => 1)
        (fun _ _ => 0))).pcs 2 = pc.fault ∧
    (run_threads 1 4 1073741824 0 (fun _ _ => (1 : Int)) (fun _ _ => 1) (List.replicate 11 0)
      (pool_init 1 4 1073741824 0 (fun _ _ => (1 : Int)) (fun _ _ => 1)
        (fun _ _ => 0))).mem.visits = [(0, 0), (0, 0)] := by
  refine ⟨by decide, by decide, by decide, by rfl, by decide⟩

/-- C2 (amended): under the static schedule, for every `n`, `W ≥ 1` and `c ≥ 1` with
`n + W * c ≤ 2147483647`, and in the state reached by any interleaving `schedule` of the
workers' steps, for every worker `t < W`:
* the rows whose computation `t` has begun are logged in increasing order, none twice,
  each a row `r` of `[0, n)` with `t = (r / c) mod W`;
* a step of `t` changes no entry of `C` in a row `r` with `t ≠ (r / c) mod W`;
* once `t` has returned, a row `r < n` is in its log exactly when `r` lies in
  `[t*c + m*W*c, t*c + m*W*c + c)` for some `m`, that is exactly when `t = (r / c) mod W`,
  and every entry `C[r][j]`, `j < n`, of such a row holds the sum of the products
  `A[r][k] * B[k][j]`;
* `t` has returned once it has taken `step_bound n` steps.
And `(r / c) mod W` is a worker id below `W`: each row has one and only one worker. -/
theorem static_schedule_partition {α : Type} [Zero α] [Add α] [Mul α]
    (n W c : Nat) (A B C0 : Mat α) (schedule : List Nat)
    (hW : 1 ≤ W) (hc : 1 ≤ c) (hr : n + W * c ≤ 2147483647) :
    (∀ t, t < W →
      (visits_of t (run_threads (n : Int) W c 0 A B schedule
        (pool_init (n : Int) W c 0 A B C0)).mem).Pairwise (fun a b => a < b) ∧
      (∀ r : Int, r ∈ visits_of t (run_threads (n : Int) W c 0 A B schedule
          (pool_init (n : Int) W c 0 A B C0)).mem →
        0 ≤ r ∧ r < n ∧ t = (r.toNat / c) % W) ∧
      (∀ r j : Nat, t ≠ (r / c) % W →
        (pool_step (n : Int) W c 0 A B (run_threads (n : Int) W c 0 A B schedule
          (pool_init (n : Int) W c 0 A B C0)) t).mem.C r j =
        (run_threads (n : Int) W c 0 A B schedule
          (pool_init (n : Int) W c 0 A B C0)).mem.C r j) ∧
      ((run_threads (n : Int) W c 0 A B schedule
          (pool_init (n : Int) W c 0 A B C0)).pcs t = pc.done →
        ∀ r : Nat, r < n →
          (((r : Int) ∈ visits_of t (run_threads (n : Int) W c 0 A B schedule
              (pool_init (n : Int) W c 0 A B C0)).mem ↔
            ∃ m, t * c + m * W * c ≤ r ∧ r < t * c + m * W * c + c) ∧
          ((r : Int) ∈ visits_of t (run_threads (n : Int) W c 0 A B schedule
              (pool_init (n : Int) W c 0 A B C0)).mem ↔ t = (r / c) % W) ∧
          (t = (r / c) % W → ∀ j, j < n →
            (run_threads (n : Int) W c 0 A B schedule
              (pool_init (n : Int) W c 0 A B C0)).mem.C r j = dot A B n r j))) ∧
      (step_bound n ≤ schedule.count t →
        (run_threads (n : Int) W c 0 A B schedule
          (pool_init (n : Int) W c 0 A B C0)).pcs t = pc.done)) ∧
    (∀ r, (r / c) % W < W) := by
  have hinv := run_threads_pool_inv n W c 0 A B C0 hc hr schedule
  refine ⟨fun t ht => ⟨(hinv.1 t ht).2.1.1, ?_, ?_, ?_, ?_⟩,
    fun r => Nat.mod_lt _ (by omega)⟩
  · intro r hmem
    obtain ⟨ho, hlt, -⟩ := ((hinv.1 t ht).2.1.2 r).1 hmem
    have h0 := owns_nonneg W c 0 t r ho
    refine ⟨h0, hlt, ?_⟩
    rw [← Int.toNat_of_nonneg h0] at ho
    exact (owns_static_iff W c t _ hc ht).1 ho
  · intro r j hne
    have h0 : (t : Int) < (W : Int) := by exact_mod_cast ht
    simp only [pool_step, if_pos h0]
    apply step_C_owned n W c 0 A B t _ _ (hinv.1 t ht).1
    rw [owns_static_iff W c t r hc ht]
    exact hne
  · intro hd r hrn
    have h1 := done_visits n W c 0 A B _ hinv t ht hd r
    have h2 := owns_static_iff W c t r hc ht
    have h3 : (r : Int) < (n : Int) := by exact_mod_cast hrn
    refine ⟨?_, ?_, ?_⟩
    · rw [h1, h2, tile_owner W c t r hc ht]
      simp [h3]
    · rw [h1, h2]
      simp [h3]
    · intro hown j hj
      exact done_content n W c 0 A B _ hinv (Or.inl rfl) t ht hd r j (h2.2 hown) hrn hj
  · intro hcount
    exact run_threads_done n W c 0 A B C0 hc hr schedule t ht hcount

theorem static_schedule_partition_witness :
    (1 ≤ 2 ∧ 1 ≤ 1 ∧ 2 + 2 * 1 ≤ 2147483647) ∧
    (∀ t, t < 2 → step_bound 2 ≤ (List.replicate 34 [0, 1]).flatten.count t) ∧
    (∀ t, t < 2 →
      (visits_of t (run_threads ((2 : Nat) : Int) ((2 : Nat) : Int) ((1 : Nat) : Int) 0
        (fun _ _ => (1 : Int)) (fun _ _ => 1) (List.replicate 34 [0, 1]).flatten
        (pool_init ((2 : Nat) : Int) ((2 : Nat) : Int) ((1 : Nat) : Int) 0
          (fun _ _ => (1 : Int)) (fun _ _ => 1) (fun _ _ => 0))).mem).Pairwise
            (fun a b => a < b) ∧
      ((run_threads ((2 : Nat) : Int) ((2 : Nat) : Int) ((1 : Nat) : Int) 0
          (fun _ _ => (1 : Int)) (fun _ _ => 1) (List.replicate 34 [0, 1]).flatten
          (pool_init ((2 : Nat) : Int) ((2 : Nat) : Int) ((1 : Nat) : Int) 0
            (fun _ _ => (1 : Int)) (fun _ _ => 1) (fun _ _ => 0))).pcs t = pc.done →
        ∀ r : Nat, r < 2 →
          ((r : Int) ∈ visits_of t (run_threads ((2 : Nat) : Int) ((2 : Nat) : Int)
              ((1 : Nat) : Int) 0
              (fun _ _ => (1 : Int)) (fun _ _ => 1) (List.replicate 34 [0, 1]).flatten
              (pool_init ((2 : Nat) : Int) ((2 : Nat) : Int) ((1 : Nat) : Int) 0
                (fun _ _ => (1 : Int)) (fun _ _ => 1) (fun _ _ => 0))).mem ↔
            t = (r / 1) % 2)) ∧
      (step_bound 2 ≤ (List.replicate 34 [0, 1]).flatten.count t →
        (run_threads ((2 : Nat) : Int) ((2 : Nat) : Int) ((1 : Nat) : Int) 0
          (fun _ _ => (1 : Int)) (fun _ _ => 1) (List.replicate 34 [0, 1]).flatten
          (pool_init ((2 : Nat) : Int) ((2 : Nat) : Int) ((1 : Nat) : Int) 0
            (fun _ _ => (1 : Int)) (fun _ _ => 1) (fun _ _ => 0))).pcs t = pc.done)) :=
  ⟨⟨by decide, by decide, by decide⟩, by decide, fun t ht =>
    ⟨((static_schedule_partition 2 2 1 (fun _ _ => (1 : Int)) (fun _ _ => 1) (fun _ _ => 0)
        (List.replicate 34 [0, 1]).flatten (by decide) (by decide) (by decide)).1 t ht).1,
      fun hd r hr =>
        (((static_schedule_partition 2 2 1 (fun _ _ => (1 : Int)) (fun _ _ => 1)
          (fun _ _ => 0) (List.replicate 34 [0, 1]).flatten (by decide) (by decide)
          (by decide)).1 t ht).2.2.2.1 hd r hr).2.1,
      ((static_schedule_partition 2 2 1 (fun _ _ => (1 : Int)) (fun _ _ => 1) (fun _ _ => 0)
        (List.replicate 34 [0, 1]).flatten (by decide) (by decide) (by decide)).1 t
          ht).2.2.2.2⟩⟩

end matrix_mult

namespace matrix_mult

/-- C3 (evaluation at the failing input): under the dynamic schedule with `n = 129`,
`W = 4`, `c = 16`, whatever the interleaving `schedule` of the workers' steps: when the
multiply step of `run_experiment` returns, the workers have logged 516 row computations,
not 129, and each of the workers 0, 1, 2, 3 has computed each of the rows 0 .. 128, row 128
(the partial last tile) included, since every worker counts from its own `next_row = 0`;
and the step returns for every interleaving in which each worker takes `step_bound 129`
steps or more. -/
theorem dynamic_schedule_recomputes_rows {α : Type} [Zero α] [Add α] [Mul α]
    (A B C0 : Mat α) (schedule : List Nat) :
    (∀ s', run_experiment_multiply schedule 129 4 16 1 A B C0 = some s' →
      s'.visits.length = 516 ∧
      ∀ t r : Nat, t < 4 → r < 129 → ((t : Int), (r : Int)) ∈ s'.visits) ∧
    ((∀ t, t < 4 → step_bound 129 ≤ schedule.count t) →
      ∃ s', run_experiment_multiply schedule 129 4 16 1 A B C0 = some s') := by
  have hinv := run_threads_pool_inv 129 4 16 1 A B C0 (by decide) (by decide) schedule
  constructor
  · intro s' hs'
    rw [run_experiment_multiply_eq_some schedule _ _ _ _ A B C0 (by decide)] at hs'
    obtain ⟨hjoin, rfl⟩ := hs'
    exact joined_dynamic_visits 129 4 16 1 A B _ hinv (by decide) (by decide) hjoin
  · intro hfair
    refine ⟨_, (run_experiment_multiply_eq_some schedule _ _ _ _ A B C0 (by decide) _).2
      ⟨?_, rfl⟩⟩
    exact (joined_iff 4 _).2 (fun t ht =>
      run_threads_done 129 4 16 1 A B C0 (by decide) (by decide) schedule t ht (hfair t ht))

set_option maxRecDepth 100000 in
/-- C7 (counterexample): the stated case `N = 4`, `W = 2`, `C = 1` under the dynamic
schedule, with `A` the identity and `B[i][j] = 10 i + j + 1`, so `B[3][3] = 34`.  In the
interleaving where worker 0 runs up to the last load of `C[3][3]`, worker 1 then runs to
its return, and worker 0 goes on, both workers return and `C[3][3]` is 68, twice
`B[3][3]`.  And under the static schedule with `N = 1`, `W = 4` and chunk `1073741824` the
workers never have all returned, whatever the interleaving, the stride being 0 in 32
bits. -/
theorem identity_multiply_counterexample :
    (run_experiment_multiply
      (List.replicate 171 0 ++ List.replicate 177 1 ++ List.replicate 6 0) 4 2 1 1
      (identity Int) (fun i j => (10 : Int) * i + j + 1) (fun _ _ => 0)).map
        (fun s => s.C 3 3) = some 68 ∧
    (fun i j : Nat => (10 : Int) * i + j + 1) 3 3 = 34 ∧
    (∀ schedule : List Nat,
      joined 4 (run_threads 1 4 1073741824 0 (identity Int) (fun _ _ => 1) schedule
        (pool_init 1 4 1073741824 0 (identity Int) (fun _ _ => 1) (fun _ _ => 0))) =
          false) := by
  refine ⟨by decide, by decide, fun schedule => ?_⟩
  exact joined_false_of_not_done 4 _ 0 (by decide)
    (stride_overflow_never_done 1 _ _ _ (by decide) schedule)

/-- With `A` the identity, the sum of the products `A[i][k] * B[k][j]` over `k < n` is
`B[i][j]`, by the laws `0 * x = 0`, `1 * x = x`, `0 + x = x` and `x + 0 = x`. -/
theorem dot_identity {α : Type} [Zero α] [One α] [Add α] [Mul α]
    (hzm : ∀ x : α, 0 * x = 0) (hom : ∀ x : α, 1 * x = x) (hza : ∀ x : α, 0 + x = x)
    (haz : ∀ x : α, x + 0 = x) (B : Mat α) (n i j : Nat) (hi : i < n) :
    dot (identity α) B n i j = B i j := by
  have key : ∀ m, (List.range m).foldl (fun acc k => acc + identity α i k * B k j) 0 =
      if i < m then B i j else 0 := by
    intro m
    induction m with
    | zero => simp
    | succ m ih =>
      rw [List.range_succ, List.foldl_append, ih]
      simp only [List.foldl_cons, List.foldl_nil, identity]
      by_cases h1 : i < m
      · have : i ≠ m := by omega
        simp [h1, this, Nat.lt_succ_of_lt h1, hzm, haz]
      · by_cases h2 : i = m
        · simp [h2, hom, hza]
        · have : ¬ i < m + 1 := by omega
          simp [h1, h2, this, hzm, haz]
  unfold dot
  rw [key, if_pos hi]

/-- C7 (amended): with `A` the identity matrix and exact arithmetic (of which the laws
`0 * x = 0`, `1 * x = x`, `0 + x = x` and `x + 0 = x` are used), for every `n`, every `B`,
`W ≥ 1` workers and chunk `c ≥ 1` with `n + W * c ≤ 2147483647`, under the static schedule
(and under either schedule when `W = 1`), and for every interleaving `schedule` of the
steps of the `W` workers of `parallel_mm`: once all workers have returned,
`C[i][j] = B[i][j]` for all `i, j < n`; and all workers have returned in every interleaving
in which each takes `step_bound n` steps or more. -/
theorem identity_multiply {α : Type} [Zero α] [One α] [Add α] [Mul α]
    (hzm : ∀ x : α, 0 * x = 0) (hom : ∀ x : α, 1 * x = x) (hza : ∀ x : α, 0 + x = x)
    (haz : ∀ x : α, x + 0 = x) (n W c : Nat) (sched : Int)
    (B C0 : Mat α) (schedule : List Nat) (hW : 1 ≤ W) (hc : 1 ≤ c)
    (hr : n + W * c ≤ 2147483647) (hs : sched = 0 ∨ W = 1) :
    (joined (W : Int) (run_threads (n : Int) W c sched (identity α) B schedule
        (pool_init (n : Int) W c sched (identity α) B C0)) = true →
      ∀ i j, i < n → j < n →
        (run_threads (n : Int) W c sched (identity α) B schedule
          (pool_init (n : Int) W c sched (identity α) B C0)).mem.C i j = B i j) ∧
    ((∀ t, t < W → step_bound n ≤ schedule.count t) →
      joined (W : Int) (run_threads (n : Int) W c sched (identity α) B schedule
        (pool_init (n : Int) W c sched (identity α) B C0)) = true) := by
  constructor
  · intro hjoin i j hi hj
    rw [joined_content n W c sched (identity α) B _
      (run_threads_pool_inv n W c sched (identity α) B C0 hc hr schedule) hs hW hc hjoin i j hi
      hj]
    exact dot_identity hzm hom hza haz B n i j hi
  · intro hfair
    exact (joined_iff W _).2 (fun t ht =>
      run_threads_done n W c sched (identity α) B C0 hc hr schedule t ht (hfair t ht))

set_option maxRecDepth 100000 in
theorem identity_multiply_witness :
    ((∀ x : Int, 0 * x = 0) ∧ (∀ x : Int, 1 * x = x) ∧ (∀ x : Int, 0 + x = x) ∧
      (∀ x : Int, x + 0 = x)) ∧
    (1 ≤ 2 ∧ 1 ≤ 1 ∧ 4 + 2 * 1 ≤ 2147483647 ∧ ((0 : Int) = 0 ∨ 2 = 1)) ∧
    (∀ t, t < 2 → step_bound 4 ≤ (List.replicate 178 [0, 1]).flatten.count t) ∧
    ((joined ((2 : Nat) : Int) (run_threads ((4 : Nat) : Int) ((2 : Nat) : Int)
          ((1 : Nat) : Int) 0 (identity Int) (fun i j => (10 : Int) * i + j + 1)
          (List.replicate 178 [0, 1]).flatten
          (pool_init ((4 : Nat) : Int) ((2 : Nat) : Int) ((1 : Nat) : Int) 0 (identity Int)
            (fun i j => (10 : Int) * i + j + 1) (fun _ _ => 0))) = true →
        ∀ i j, i < 4 → j < 4 →
          (run_threads ((4 : Nat) : Int) ((2 : Nat) : Int) ((1 : Nat) : Int) 0 (identity Int)
            (fun i j => (10 : Int) * i + j + 1) (List.replicate 178 [0, 1]).flatten
            (pool_init ((4 : Nat) : Int) ((2 : Nat) : Int) ((1 : Nat) : Int) 0 (identity Int)
              (fun i j => (10 : Int) * i + j + 1) (fun _ _ => 0))).mem.C i j =
            (10 : Int) * i + j + 1) ∧
      ((∀ t, t < 2 → step_bound 4 ≤ (List.replicate 178 [0, 1]).flatten.count t) →
        joined ((2 : Nat) : Int) (run_threads ((4 : Nat) : Int) ((2 : Nat) : Int)
          ((1 : Nat) : Int) 0 (identity Int) (fun i j => (10 : Int) * i + j + 1)
          (List.replicate 178 [0, 1]).flatten
          (pool_init ((4 : Nat) : Int) ((2 : Nat) : Int) ((1 : Nat) : Int) 0 (identity Int)
            (fun i j => (10 : Int) * i + j + 1) (fun _ _ => 0))) = true)) :=
  ⟨⟨Int.zero_mul, Int.one_mul, Int.zero_add, Int.add_zero⟩,
    ⟨by decide, by decide, by decide, Or.inl rfl⟩, by decide,
    identity_multiply Int.zero_mul Int.one_mul Int.zero_add Int.add_zero 4 2 1 0
      (fun i j => (10 : Int) * i + j + 1) (fun _ _ => 0)
      (List.replicate 178 [0, 1]).flatten (by decide) (by decide) (by decide) (Or.inl rfl)⟩

end matrix_mult

namespace lab2

theorem manual_range_mem_unique (N W id1 id2 r : Nat) (h1 : id1 < W) (h2 : id2 < W)
    (hlt : id1 < id2) (hr1 : r < (manual_range N W id1).2)
    (hr2 : (manual_range N W id2).1 ≤ r) : False := by
  simp only [manual_range] at hr1 hr2
  have hne : id1 ≠ W - 1 := by omega
  rw [if_neg hne] at hr1
  have : (id1 + 1) * (N / W) ≤ id2 * (N / W) := Nat.mul_le_mul_right _ (by omega)
  rw [Nat.succ_mul] at this
  omega

/-- C4: in `manual_reduction_sum`, for every length `N` and worker count `W ≥ 1`, the
ranges `[start, end)` of the thread ids `0 .. W-1` cover exactly `[0, N)` (an index is
below `N` iff it lies in the range of some id below `W`), are pairwise disjoint (an index
in the ranges of two ids below `W` forces the ids to be equal), and when `N < W` every
range but the last is empty. -/
theorem manual_ranges_partition (N W : Nat) (hW : 1 ≤ W) :
    (∀ r, r < N ↔
      ∃ id, id < W ∧ (manual_range N W id).1 ≤ r ∧ r < (manual_range N W id).2) ∧
    (∀ id1 id2 r, id1 < W → id2 < W →
      (manual_range N W id1).1 ≤ r → r < (manual_range N W id1).2 →
      (manual_range N W id2).1 ≤ r → r < (manual_range N W id2).2 → id1 = id2) ∧
    (N < W → ∀ id, id + 1 < W → (manual_range N W id).1 = (manual_range N W id).2) := by
  have hq : (W - 1) * (N / W) ≤ N :=
    le_trans (Nat.mul_le_mul_right _ (Nat.sub_le W 1)) (Nat.mul_div_le N W)
  refine ⟨?_, ?_, ?_⟩
  · intro r
    constructor
    · intro hr
      by_cases h : r < (W - 1) * (N / W)
      · have hqpos : 0 < N / W := by
          rcases Nat.eq_zero_or_pos (N / W) with h0 | h0
          · rw [h0] at h; simp at h
          · exact h0
        have hid : r / (N / W) < W - 1 := by
          rw [Nat.div_lt_iff_lt_mul hqpos]; exact h
        refine ⟨r / (N / W), by omega, ?_, ?_⟩
        · simp only [manual_range]
          exact Nat.div_mul_le_self r (N / W)
        · simp only [manual_range]
          rw [if_neg (by omega)]
          exact Nat.lt_div_mul_add hqpos
      · refine ⟨W - 1, by omega, ?_, ?_⟩
        · simp only [manual_range]; omega
        · simp only [manual_range, if_true]; exact hr
    · rintro ⟨id, hid, h1, h2⟩
      simp only [manual_range] at h1 h2
      by_cases h : id = W - 1
      · rw [if_pos h] at h2; exact h2
      · rw [if_neg h] at h2
        have : (id + 1) * (N / W) ≤ (W - 1) * (N / W) := Nat.mul_le_mul_right _ (by omega)
        rw [Nat.succ_mul] at this
        omega
  · intro id1 id2 r h1 h2 ha1 hb1 ha2 hb2
    rcases Nat.lt_trichotomy id1 id2 with h | h | h
    · exact (manual_range_mem_unique N W id1 id2 r h1 h2 h hb1 ha2).elim
    · exact h
    · exact (manual_range_mem_unique N W id2 id1 r h2 h1 h hb2 ha1).elim
  · intro hNW id hid
    simp only [manual_range]
    rw [if_neg (by omega), Nat.div_eq_of_lt hNW]
    rfl

theorem manual_ranges_partition_witness :
    1 ≤ 8 ∧
    (∀ r, r < 3 ↔
      ∃ id, id < 8 ∧ (manual_range 3 8 id).1 ≤ r ∧ r < (manual_range 3 8 id).2) ∧
    (∀ id1 id2 r, id1 < 8 → id2 < 8 →
      (manual_range 3 8 id1).1 ≤ r → r < (manual_range 3 8 id1).2 →
      (manual_range 3 8 id2).1 ≤ r → r < (manual_range 3 8 id2).2 → id1 = id2) ∧
    (3 < 8 → ∀ id, id + 1 < 8 → (manual_range 3 8 id).1 = (manual_range 3 8 id).2) :=
  ⟨by decide, manual_ranges_partition 3 8 (by decide)⟩

end lab2

namespace lab2

section reduction_lemmas

variable {α : Type} [AddCommMonoid α]

theorem foldl_add_eq_sum (f : Nat → α) (l : List Nat) (a : α) :
    l.foldl (fun s i => s + f i) a = a + (l.map f).sum := by
  induction l generalizing a with
  | nil => simp
  | cons x l ih =>
    simp only [List.foldl_cons, List.map_cons, List.sum_cons]
    rw [ih, add_assoc]

theorem for_loop_add_eq_sum (f : Nat → α) (lo hi : Nat) :
    for_loop lo hi (fun i s => s + f i) 0 = ((List.range' lo (hi - lo)).map f).sum := by
  unfold for_loop
  rw [foldl_add_eq_sum, zero_add]

theorem sequential_sum_eq (array : Nat → α) (N : Nat) :
    sequential_sum array N = ((List.range' 0 N).map array).sum := by
  unfold sequential_sum
  rw [for_loop_add_eq_sum, Nat.sub_zero]

theorem sum_range_append (f : Nat → α) (a m k : Nat) :
    ((List.range' a m).map f).sum + ((List.range' (a + m) k).map f).sum =
      ((List.range' a (m + k)).map f).sum := by
  rw [← List.sum_append, ← List.map_append, List.range'_append_1, Nat.add_comm k m]

/-- The local sums of the first `w` workers, none of them the last, add up to the sum of
the first `w * (N / W)` elements. -/
theorem sum_first_workers (array : Nat → α) (N W w : Nat) (hw : w ≤ W - 1) :
    ((List.range w).map (manual_local_sum array N W)).sum =
      ((List.range' 0 (w * (N / W))).map array).sum := by
  induction w with
  | zero => simp
  | succ w ih =>
    rw [List.range_succ, List.map_append, List.sum_append, ih (by omega)]
    simp only [List.map_cons, List.map_nil, List.sum_cons, List.sum_nil, add_zero]
    have hne : w ≠ W - 1 := by omega
    have hloc : manual_local_sum array N W w =
        ((List.range' (w * (N / W)) (N / W)).map array).sum := by
      unfold manual_local_sum
      rw [for_loop_add_eq_sum]
      simp only [manual_range, if_neg hne, Nat.add_sub_cancel_left]
    rw [hloc]
    have := sum_range_append array 0 (w * (N / W)) (N / W)
    rw [Nat.zero_add] at this
    rw [this, Nat.succ_mul]

theorem sum_all_workers (array : Nat → α) (N W : Nat) (hW : 1 ≤ W) :
    ((List.range W).map (manual_local_sum array N W)).sum = sequential_sum array N := by
  obtain ⟨w, rfl⟩ : ∃ w, W = w + 1 := ⟨W - 1, by omega⟩
  have hq : w * (N / (w + 1)) ≤ N :=
    le_trans (Nat.mul_le_mul_right _ (Nat.le_succ w)) (Nat.mul_div_le N (w + 1))
  rw [List.range_succ, List.map_append, List.sum_append,
    sum_first_workers array N (w + 1) w (by omega)]
  simp only [List.map_cons, List.map_nil, List.sum_cons, List.sum_nil, add_zero]
  have hloc : manual_local_sum array N (w + 1) w =
      ((List.range' (w * (N / (w + 1))) (N - w * (N / (w + 1)))).map array).sum := by
    unfold manual_local_sum
    rw [for_loop_add_eq_sum]
    simp only [manual_range, Nat.add_sub_cancel, if_true]
  rw [hloc, sequential_sum_eq]
  have := sum_range_append array 0 (w * (N / (w + 1))) (N - w * (N / (w + 1)))
  rw [Nat.zero_add] at this
  rw [this]
  congr 3
  omega

theorem sequential_sum_ones (N : Nat) : sequential_sum (fun _ => (1 : Int)) N = N := by
  rw [sequential_sum_eq]
  simp

/-- With addition modelled exactly the merged local sums are the sequential sum. -/
theorem manual_reduction_sum_exact (array : Nat → α) (N W : Nat)
    (order : List Nat) (hW : 1 ≤ W) (horder : order.Perm (List.range W)) :
    manual_reduction_sum array N W order = sequential_sum array N := by
  unfold manual_reduction_sum
  rw [foldl_add_eq_sum, zero_add, (horder.map _).sum_eq, sum_all_workers array N W hW]

/-- Rounding to 53 significant binary digits leaves an integer of magnitude below `2 ^ 53`
as it is. -/
theorem round53_of_small (z : Int) (h : z.natAbs < 2 ^ 53) : round53 z = z := by
  have h0 : drop_bits 2048 z.natAbs = 0 := by
    show (if z.natAbs < 2 ^ 53 then 0 else drop_bits 2047 (z.natAbs / 2) + 1) = 0
    rw [if_pos h]
  unfold round53
  simp only [h0, pow_zero, Nat.div_one, Nat.mod_one, Nat.mul_zero, Nat.mul_one]
  rw [if_neg (by simp)]
  exact Int.sign_mul_natAbs z

/-- The magnitude of a sum of integers is at most the sum of the magnitudes. -/
theorem natAbs_sum_le (f : Nat → Int) (l : List Nat) :
    ((l.map f).sum).natAbs ≤ (l.map (fun i => (f i).natAbs)).sum := by
  induction l with
  | nil => simp
  | cons x l ih =>
    simp only [List.map_cons, List.sum_cons]
    exact (Int.natAbs_add_le _ _).trans (Nat.add_le_add_left ih _)

/-- A chain of `double` additions of integer values whose magnitudes, with that of the
starting value, add up to less than `2 ^ 53` gives the exact sum. -/
theorem double_foldl_exact (f : Nat → double) (l : List Nat) (s : Int)
    (h : s.natAbs + (l.map (fun i => (f i).val.natAbs)).sum < 2 ^ 53) :
    l.foldl (fun acc i => acc + f i) (⟨s⟩ : double) =
      ⟨s + (l.map (fun i => (f i).val)).sum⟩ := by
  induction l generalizing s with
  | nil => simp
  | cons x l ih =>
    simp only [List.map_cons, List.sum_cons] at h
    have h1 : ((⟨s⟩ : double) + f x) = ⟨s + (f x).val⟩ := by
      show (⟨round53 (s + (f x).val)⟩ : double) = _
      rw [round53_of_small]
      have := Int.natAbs_add_le s (f x).val
      omega
    simp only [List.foldl_cons, List.map_cons, List.sum_cons, h1]
    rw [ih (s + (f x).val) (by
      have := Int.natAbs_add_le s (f x).val
      omega), add_assoc]

theorem for_loop_double (f : Nat → double) (lo hi : Nat)
    (h : ((List.range' lo (hi - lo)).map (fun i => (f i).val.natAbs)).sum < 2 ^ 53) :
    for_loop lo hi (fun i s => s + f i) (0 : double) =
      ⟨((List.range' lo (hi - lo)).map (fun i => (f i).val)).sum⟩ := by
  unfold for_loop
  have := double_foldl_exact f (List.range' lo (hi - lo)) 0 (by simpa using h)
  rw [zero_add] at this
  exact this

/-- In `double` arithmetic `sequential_sum` is exact on integer values whose magnitudes
add up to less than `2 ^ 53`. -/
theorem sequential_sum_double (darray : Nat → double) (N : Nat)
    (h : sequential_sum (fun i => (darray i).val.natAbs) N < 2 ^ 53) :
    sequential_sum darray N = ⟨sequential_sum (fun i => (darray i).val) N⟩ := by
  rw [sequential_sum_eq] at h
  rw [sequential_sum_eq]
  unfold sequential_sum
  rw [for_loop_double darray 0 N (by rw [Nat.sub_zero]; exact h), Nat.sub_zero]

/-- In `double` arithmetic the local sum of a worker is exact on such an array. -/
theorem manual_local_sum_double (darray : Nat → double) (N W t : Nat) (hW : 1 ≤ W)
    (ht : t < W) (h : sequential_sum (fun i => (darray i).val.natAbs) N < 2 ^ 53) :
    manual_local_sum darray N W t = ⟨manual_local_sum (fun i => (darray i).val) N W t⟩ ∧
    (manual_local_sum (fun i => (darray i).val) N W t).natAbs ≤
      manual_local_sum (fun i => (darray i).val.natAbs) N W t ∧
    manual_local_sum (fun i => (darray i).val.natAbs) N W t ≤
      sequential_sum (fun i => (darray i).val.natAbs) N := by
  have h1 : manual_local_sum (fun i => (darray i).val.natAbs) N W t ≤
      sequential_sum (fun i => (darray i).val.natAbs) N := by
    rw [← sum_all_workers (fun i => (darray i).val.natAbs) N W hW]
    exact List.le_sum_of_mem (List.mem_map.2 ⟨t, List.mem_range.2 ht, rfl⟩)
  have h2 : manual_local_sum (fun i => (darray i).val.natAbs) N W t =
      ((List.range' (manual_range N W t).1
        ((manual_range N W t).2 - (manual_range N W t).1)).map
          (fun i => (darray i).val.natAbs)).sum := by
    unfold manual_local_sum
    rw [for_loop_add_eq_sum]
  have h3 : manual_local_sum (fun i => (darray i).val) N W t =
      ((List.range' (manual_range N W t).1
        ((manual_range N W t).2 - (manual_range N W t).1)).map
          (fun i => (darray i).val)).sum := by
    unfold manual_local_sum
    rw [for_loop_add_eq_sum]
  refine ⟨?_, ?_, h1⟩
  · rw [h3]
    unfold manual_local_sum
    exact for_loop_double darray _ _ (by rw [← h2]; omega)
  · rw [h2, h3]
    exact natAbs_sum_le _ _

/-- In `double` arithmetic `manual_reduction_sum` equals `sequential_sum` on an array of
integer values whose magnitudes add up to less than `2 ^ 53`. -/
theorem manual_reduction_sum_double (darray : Nat → double) (N W : Nat)
    (order : List Nat) (hW : 1 ≤ W) (horder : order.Perm (List.range W))
    (h : sequential_sum (fun i => (darray i).val.natAbs) N < 2 ^ 53) :
    manual_reduction_sum darray N W order = sequential_sum darray N := by
  have hmem : ∀ t, t ∈ order → t < W := fun t ht =>
    List.mem_range.1 ((horder.mem_iff).1 ht)
  have hval : ∀ t, t ∈ order → (manual_local_sum darray N W t).val =
      manual_local_sum (fun i => (darray i).val) N W t := by
    intro t ht
    rw [(manual_local_sum_double darray N W t hW (hmem t ht) h).1]
  have hbound : (order.map (fun t => (manual_local_sum darray N W t).val.natAbs)).sum ≤
      sequential_sum (fun i => (darray i).val.natAbs) N := by
    rw [← sum_all_workers (fun i => (darray i).val.natAbs) N W hW, ← (horder.map _).sum_eq]
    apply List.sum_le_sum
    intro t ht
    rw [hval t ht]
    exact (manual_local_sum_double darray N W t hW (hmem t ht) h).2.1
  rw [sequential_sum_double darray N h]
  unfold manual_reduction_sum
  have := double_foldl_exact (fun t => manual_local_sum darray N W t) order 0
    (by simp only [Int.natAbs_zero, Nat.zero_add]; omega)
  rw [zero_add] at this
  rw [show (0 : double) = ⟨0⟩ from rfl, this]
  congr 1
  rw [← manual_reduction_sum_exact (fun i => (darray i).val) N W order hW horder]
  unfold manual_reduction_sum
  rw [foldl_add_eq_sum, zero_add]
  exact congrArg List.sum (List.map_congr_left hval)

theorem sequential_sum_ones_nat (N : Nat) : sequential_sum (fun _ => (1 : Nat)) N = N := by
  rw [sequential_sum_eq]
  simp

/-- An array of `N` ones, `N < 2 ^ 53`, is within the range where `double` sums are
exact. -/
theorem ones_small (N : Nat) (h : N < 2 ^ 53) :
    sequential_sum (fun i => ((fun _ => (⟨1⟩ : double)) i).val.natAbs) N < 2 ^ 53 := by
  show sequential_sum (fun _ => (1 : Nat)) N < 2 ^ 53
  rw [sequential_sum_ones_nat]
  exact h

/-- C5 (amended): for every array, every length `N`, every worker count `W ≥ 1` and every
order in which the workers `0 .. W-1` merge their local sums: with addition modelled
exactly (a commutative monoid, such as the integers or the rationals) the sum
`manual_reduction_sum` returns equals `sequential_sum` of the array; and in `double`
arithmetic the same holds of an array of integer values whose magnitudes add up to less
than `2 ^ 53`, where no addition rounds and `sequential_sum` is the exact sum. -/
theorem manual_reduction_sum_eq_sequential (array : Nat → α) (darray : Nat → double)
    (N W : Nat) (order : List Nat) (hW : 1 ≤ W) (horder : order.Perm (List.range W)) :
    manual_reduction_sum array N W order = sequential_sum array N ∧
    (sequential_sum (fun i => (darray i).val.natAbs) N < 2 ^ 53 →
      manual_reduction_sum darray N W order = sequential_sum darray N ∧
      (sequential_sum darray N).val = sequential_sum (fun i => (darray i).val) N) :=
  ⟨manual_reduction_sum_exact array N W order hW horder,
    fun h => ⟨manual_reduction_sum_double darray N W order hW horder h,
      by rw [sequential_sum_double darray N h]⟩⟩

end reduction_lemmas

theorem manual_reduction_sum_eq_sequential_witness :
    (1 ≤ 8 ∧ [7, 3, 0, 1, 2, 4, 5, 6].Perm (List.range 8) ∧
      sequential_sum (fun i => ((fun _ => (⟨1⟩ : double)) i).val.natAbs) 1000000 < 2 ^ 53) ∧
    manual_reduction_sum (fun i => [(1 : Int), 2, 3, 4].getD i 0) 4 8
      [7, 3, 0, 1, 2, 4, 5, 6] = 10 ∧
    manual_reduction_sum (fun _ => (1 : Int)) 1000000 8 [7, 3, 0, 1, 2, 4, 5, 6] = 1000000 ∧
    manual_reduction_sum (fun _ => (0 : Int)) 0 8 [7, 3, 0, 1, 2, 4, 5, 6] = 0 ∧
    manual_reduction_sum (fun _ => (⟨1⟩ : double)) 1000000 8 [7, 3, 0, 1, 2, 4, 5, 6] =
      sequential_sum (fun _ => (⟨1⟩ : double)) 1000000 ∧
    (sequential_sum (fun _ => (⟨1⟩ : double)) 1000000).val = 1000000 :=
  ⟨⟨by decide, by decide, ones_small 1000000 (by norm_num)⟩,
    (manual_reduction_sum_eq_sequential _ (fun _ => ⟨0⟩) 4 8 _ (by decide)
      (by decide)).1.trans (by decide),
    (manual_reduction_sum_eq_sequential _ (fun _ => ⟨0⟩) 1000000 8 _ (by decide)
      (by decide)).1.trans (sequential_sum_ones 1000000),
    (manual_reduction_sum_eq_sequential _ (fun _ => ⟨0⟩) 0 8 _ (by decide)
      (by decide)).1.trans (by decide),
    ((manual_reduction_sum_eq_sequential (fun _ => (0 : Int)) (fun _ => ⟨1⟩) 1000000 8 _
      (by decide) (by decide)).2 (ones_small 1000000 (by norm_num))).1,
    (((manual_reduction_sum_eq_sequential (fun _ => (0 : Int)) (fun _ => ⟨1⟩) 1000000 8
      [7, 3, 0, 1, 2, 4, 5, 6] (by decide) (by decide)).2
        (ones_small 1000000 (by norm_num))).2).trans (sequential_sum_ones 1000000)⟩

end lab2

namespace lab2

/-- C5 (counterexample): the array `1e16, 1, -1e16, 1` of `double` values with 2 workers.
`sequential_sum` gives 1: `1e16 + 1` rounds to `1e16`, the sum with `-1e16` is 0, and the
last 1 is added exactly.  In `manual_reduction_sum` the local sum of worker 0 is
`1e16 + 1 = 1e16` and that of worker 1 is `-1e16 + 1 = -1e16`, and their merge is 0 in
either order: a relative error of 1, not at most `1e-9`. -/
theorem manual_reduction_sum_rounding_counterexample :
    sequential_sum (fun i => [(⟨10000000000000000⟩ : double), ⟨1⟩, ⟨-10000000000000000⟩,
      ⟨1⟩].getD i 0) 4 = ⟨1⟩ ∧
    manual_reduction_sum (fun i => [(⟨10000000000000000⟩ : double), ⟨1⟩,
      ⟨-10000000000000000⟩, ⟨1⟩].getD i 0) 4 2 [0, 1] = ⟨0⟩ ∧
    manual_reduction_sum (fun i => [(⟨10000000000000000⟩ : double), ⟨1⟩,
      ⟨-10000000000000000⟩, ⟨1⟩].getD i 0) 4 2 [1, 0] = ⟨0⟩ ∧
    relative_error_spec 0 1 = 1 ∧ ¬ (relative_error_spec 0 1 ≤ 1 / 1000000000) := by
  refine ⟨by decide, by decide, by decide, ?_, ?_⟩
  · norm_num [relative_error_spec]
  · norm_num [relative_error_spec]

end lab2

namespace lab2

/-- C6 (counterexample): for the sums 2 and 1 `print_results` computes the figure 100 while
`|observed − expected| / max(1, |expected|)` is 1; and for observed = expected = 0 the
division is by zero, so there is no figure (and not the number 0). -/
theorem print_results_error_counterexample :
    print_results_error 2 1 = some 100 ∧ relative_error_spec 2 1 = 1 ∧
    print_results_error 2 1 ≠ some (relative_error_spec 2 1) ∧
    print_results_error 0 0 = none := by
  refine ⟨?_, ?_, ?_, ?_⟩ <;> norm_num [print_results_error, relative_error_spec]

/-- C6 (amended): for every observed sum and every expected sum other than 0, the figure
`print_results` computes is `|observed − expected| / expected * 100`, a percentage of the
expected sum; when the expected sum is at least 1 it is 100 times
`|observed − expected| / max(1, |expected|)`, and it is 0 when observed = expected. -/
theorem print_results_error_percent (observed expected : ℚ) (h : expected ≠ 0) :
    print_results_error observed expected =
      some (abs (observed - expected) / expected * 100) ∧
    (1 ≤ expected →
      print_results_error observed expected =
        some (100 * relative_error_spec observed expected)) ∧
    (observed = expected → print_results_error observed expected = some 0) := by
  refine ⟨by simp [print_results_error, h], ?_, ?_⟩
  · intro h1
    have habs : abs expected = expected := abs_of_nonneg (by linarith)
    simp only [print_results_error, h, if_false, relative_error_spec, habs,
      max_eq_right h1]
    congr 1
    ring
  · intro h2
    simp [print_results_error, h, h2]

theorem print_results_error_percent_witness :
    (1000 : ℚ) ≠ 0 ∧
    print_results_error 1001 1000 = some (abs (1001 - 1000) / 1000 * 100) ∧
    ((1 : ℚ) ≤ 1000 →
      print_results_error 1001 1000 = some (100 * relative_error_spec 1001 1000)) ∧
    ((1001 : ℚ) = 1000 → print_results_error 1001 1000 = some 0) :=
  ⟨by norm_num, print_results_error_percent 1001 1000 (by norm_num)⟩

end lab2

namespace matrix_mult

theorem parse_comma_separated_loop_spec (tokens : List (List Char)) (array : Nat → Int)
    (count : Nat) :
    count ≤ (parse_comma_separated_loop tokens array count).2 ∧
    (∀ i, i < count → (parse_comma_separated_loop tokens array count).1 i = array i) ∧
    (List.range' count ((parse_comma_separated_loop tokens array count).2 - count)).map
        (parse_comma_separated_loop tokens array count).1 =
      (tokens.take (10 - count)).map atoi := by
  induction tokens generalizing array count with
  | nil => simp [parse_comma_separated_loop]
  | cons token rest ih =>
    by_cases h : count < 10
    · obtain ⟨h1, h2, h3⟩ := ih (Function.update array count (atoi token)) (count + 1)
      simp only [parse_comma_separated_loop, h, if_true]
      refine ⟨by omega, ?_, ?_⟩
      · intro i hi
        rw [h2 i (by omega), Function.update_noteq (by omega)]
      · obtain ⟨k, hk⟩ : ∃ k, (parse_comma_separated_loop rest
            (Function.update array count (atoi token)) (count + 1)).2 - count = k + 1 :=
          ⟨_, (Nat.succ_pred_eq_of_pos (by omega)).symm⟩
        obtain ⟨m, hm⟩ : ∃ m, 10 - count = m + 1 :=
          ⟨_, (Nat.succ_pred_eq_of_pos (by omega)).symm⟩
        have hk' : (parse_comma_separated_loop rest
            (Function.update array count (atoi token)) (count + 1)).2 - (count + 1) = k := by
          omega
        have hm' : 10 - (count + 1) = m := by omega
        rw [hk, hm, List.range'_succ, List.take_succ_cons, List.map_cons, List.map_cons,
          ← hk', ← hm', h3, h2 count (by omega), Function.update_same]
    · have : 10 - count = 0 := by omega
      simp [parse_comma_separated_loop, h, this]

theorem parse_comma_separated_stored (str : List Char) (array : Nat → Int) :
    (List.range (parse_comma_separated str array).2).map (parse_comma_separated str array).1 =
      ((strtok_comma str []).take 10).map atoi := by
  have := (parse_comma_separated_loop_spec (strtok_comma str []) array 0).2.2
  rw [List.range_eq_range']
  simpa [parse_comma_separated] using this

theorem parse_schedule_loop_spec (tokens : List (List Char)) (arr : Nat → Int) (num : Nat) :
    num ≤ (parse_schedule_loop tokens arr num).2 ∧
    (∀ i, i < num → (parse_schedule_loop tokens arr num).1 i = arr i) ∧
    (List.range' num ((parse_schedule_loop tokens arr num).2 - num)).map
        (parse_schedule_loop tokens arr num).1 =
      (tokens.filterMap schedule_code).take (2 - num) := by
  induction tokens generalizing arr num with
  | nil => simp [parse_schedule_loop]
  | cons token rest ih =>
    by_cases h : num < 2
    · have step : ∀ v : Int, schedule_code token = some v →
          parse_schedule_loop (token :: rest) arr num =
            parse_schedule_loop rest (Function.update arr num v) (num + 1) := by
        intro v hv
        unfold schedule_code at hv
        simp only [parse_schedule_loop, h, if_true]
        by_cases hs : token = "static".toList
        · rw [if_pos hs] at hv ⊢
          rw [← Option.some.inj hv]
        · rw [if_neg hs] at hv ⊢
          by_cases hd : token = "dynamic".toList
          · rw [if_pos hd] at hv ⊢
            rw [← Option.some.inj hv]
          · rw [if_neg hd] at hv
            exact absurd hv (by simp)
      cases hc : schedule_code token with
      | none =>
        have hskip : parse_schedule_loop (token :: rest) arr num =
            parse_schedule_loop rest arr num := by
          unfold schedule_code at hc
          simp only [parse_schedule_loop, h, if_true]
          by_cases hs : token = "static".toList
          · rw [if_pos hs] at hc
            exact absurd hc (by simp)
          · rw [if_neg hs] at hc ⊢
            by_cases hd : token = "dynamic".toList
            · rw [if_pos hd] at hc
              exact absurd hc (by simp)
            · rw [if_neg hd]
        rw [hskip, List.filterMap_cons_none hc]
        exact ih arr num
      | some v =>
        obtain ⟨h1, h2, h3⟩ := ih (Function.update arr num v) (num + 1)
        rw [step v hc, List.filterMap_cons_some hc]
        refine ⟨by omega, ?_, ?_⟩
        · intro i hi
          rw [h2 i (by omega), Function.update_noteq (by omega)]
        · obtain ⟨k, hk⟩ : ∃ k, (parse_schedule_loop rest
              (Function.update arr num v) (num + 1)).2 - num = k + 1 :=
            ⟨_, (Nat.succ_pred_eq_of_pos (by omega)).symm⟩
          obtain ⟨m, hm⟩ : ∃ m, 2 - num = m + 1 :=
            ⟨_, (Nat.succ_pred_eq_of_pos (by omega)).symm⟩
          have hk' : (parse_schedule_loop rest
              (Function.update arr num v) (num + 1)).2 - (num + 1) = k := by omega
          have hm' : 2 - (num + 1) = m := by omega
          rw [hk, hm, List.range'_succ, List.take_succ_cons, List.map_cons,
            ← hk', ← hm', h3, h2 num (by omega), Function.update_same]
    · have : 2 - num = 0 := by omega
      simp [parse_schedule_loop, h, this]

theorem parse_schedule_stored (optarg : List Char) (arr : Nat → Int) :
    (List.range (parse_schedule_loop (strtok_comma optarg []) arr 0).2).map
        (parse_schedule_loop (strtok_comma optarg []) arr 0).1 =
      ((strtok_comma optarg []).filterMap schedule_code).take 2 := by
  have := (parse_schedule_loop_spec (strtok_comma optarg []) arr 0).2.2
  rw [List.range_eq_range']
  simpa using this

/-- Options that all have a case ending in `break` are consumed, and the loop goes on with
what follows them. -/
theorem parse_arguments_loop_append (pre : List (Char × List Char))
    (hpre : ∀ o ∈ pre, has_case o.1 = true) (config : config_t) :
    ∃ config1, parse_arguments_loop pre config = parse_outcome.returned 0 config1 ∧
      ∀ rest, parse_arguments_loop (pre ++ rest) config = parse_arguments_loop rest config1 := by
  induction pre generalizing config with
  | nil => exact ⟨config, rfl, fun _ => rfl⟩
  | cons o pre ih =>
    obtain ⟨c, optarg⟩ := o
    have hc : has_case c = true := hpre (c, optarg) (List.mem_cons_self _ _)
    have hpre' : ∀ o ∈ pre, has_case o.1 = true :=
      fun o ho => hpre o (List.mem_cons_of_mem _ ho)
    simp only [has_case, Bool.or_eq_true, decide_eq_true_eq] at hc
    simp only [List.cons_append, parse_arguments_loop]
    split_ifs with h1 h2 h3 h4 h5 h6 h7
    · exact ih hpre' _
    · exact ih hpre' _
    · exact ih hpre' _
    · exact ih hpre' _
    · exact ih hpre' _
    · exact ih hpre' _
    · exfalso; tauto
    · exfalso; tauto

end matrix_mult

namespace matrix_mult

/-- A non-zero return of the option loop comes from an option character without a case. -/
theorem parse_arguments_loop_nonzero (opts : List (Char × List Char)) (config : config_t)
    (code : Int) (config1 : config_t)
    (h : parse_arguments_loop opts config = parse_outcome.returned code config1)
    (hcode : code ≠ 0) : ∃ o ∈ opts, has_case o.1 = false := by
  induction opts generalizing config with
  | nil =>
    simp only [parse_arguments_loop, parse_outcome.returned.injEq] at h
    exact absurd h.1.symm hcode
  | cons o opts ih =>
    obtain ⟨c, optarg⟩ := o
    by_cases hc : has_case c = true
    · obtain ⟨config2, -, h2⟩ := parse_arguments_loop_append [(c, optarg)]
        (by intro o ho; rw [List.mem_singleton.1 ho]; exact hc) config
      have h3 := h2 opts
      rw [List.singleton_append] at h3
      rw [h3] at h
      obtain ⟨o, ho, ho2⟩ := ih config2 h
      exact ⟨o, List.mem_cons_of_mem _ ho, ho2⟩
    · exact ⟨(c, optarg), List.mem_cons_self _ _, by simpa using hc⟩

theorem main_status_of_returned_zero (opts : List (Char × List Char)) (config0 config : config_t)
    (h : parse_arguments opts config0 = parse_outcome.returned 0 config) :
    (main opts config0).2 = 0 := by
  unfold main
  rw [h]
  simp only [ne_eq, not_true_eq_false, if_false]
  split_ifs <;> rfl

/-- C8 (counterexample): for `--schedule fast`, `parse_arguments` returns 0 with an empty
schedule set and `main` ends with status 0; for `--schedule static,fast` it returns 0 with
the one schedule `static`, the name `fast` dropped. -/
theorem schedule_unknown_name_accepted :
    (∃ config, parse_arguments [('d', "fast".toList)] blank_config =
        parse_outcome.returned 0 config ∧ config.num_schedule_types = 0) ∧
    (main [('d', "fast".toList)] blank_config).2 = 0 ∧
    (∃ config, parse_arguments [('d', "static,fast".toList)] blank_config =
        parse_outcome.returned 0 config ∧
      config.num_schedule_types = 1 ∧ config.schedule_types 0 = 0) :=
  ⟨⟨_, rfl, rfl⟩, main_status_of_returned_zero _ _ _ rfl, ⟨_, rfl, rfl, rfl⟩⟩

/-- C8 (amended): a `--schedule` list never makes `parse_arguments` fail.  After options
that all have a case of the switch, a `--schedule` option with any argument makes
`parse_arguments` return 0 and `main` end with status 0; the schedule set it leaves holds
the codes of the first two tokens that are `static` or `dynamic`, in order, every other
token being skipped, and is empty when there is no such token.  And whenever
`parse_arguments` returns non-zero, the command line holds an option character that has
no case of the switch. -/
theorem parse_arguments_schedule_unchecked (pre : List (Char × List Char))
    (optarg : List Char) (config0 : config_t) (hpre : ∀ o ∈ pre, has_case o.1 = true) :
    (∃ config, parse_arguments (pre ++ [('d', optarg)]) config0 =
        parse_outcome.returned 0 config ∧
      (main (pre ++ [('d', optarg)]) config0).2 = 0 ∧
      (List.range config.num_schedule_types).map config.schedule_types =
        ((strtok_comma optarg []).filterMap schedule_code).take 2) ∧
    (∀ opts code config, parse_arguments opts config0 = parse_outcome.returned code config →
      code ≠ 0 → ∃ o ∈ opts, has_case o.1 = false) := by
  obtain ⟨config1, -, h2⟩ := parse_arguments_loop_append pre hpre (init_default_config config0)
  have h3 : parse_arguments (pre ++ [('d', optarg)]) config0 =
      parse_outcome.returned 0
        { config1 with
          schedule_types :=
            (parse_schedule_loop (strtok_comma optarg []) config1.schedule_types 0).1
          num_schedule_types :=
            (parse_schedule_loop (strtok_comma optarg []) config1.schedule_types 0).2 } := by
    unfold parse_arguments
    rw [h2]
    rfl
  exact ⟨⟨_, h3, main_status_of_returned_zero _ _ _ h3, parse_schedule_stored optarg _⟩,
    fun opts code config h hcode => parse_arguments_loop_nonzero opts _ code config h hcode⟩

theorem parse_arguments_schedule_unchecked_witness :
    (∀ o ∈ [('v', ([] : List Char))], has_case o.1 = true) ∧
    (∃ config, parse_arguments ([('v', [])] ++ [('d', "dynamic,fast,static".toList)])
        blank_config = parse_outcome.returned 0 config ∧
      (main ([('v', [])] ++ [('d', "dynamic,fast,static".toList)]) blank_config).2 = 0 ∧
      (List.range config.num_schedule_types).map config.schedule_types =
        ((strtok_comma "dynamic,fast,static".toList []).filterMap schedule_code).take 2) ∧
    (∀ opts code config, parse_arguments opts blank_config =
        parse_outcome.returned code config →
      code ≠ 0 → ∃ o ∈ opts, has_case o.1 = false) :=
  ⟨by decide, parse_arguments_schedule_unchecked [('v', [])] "dynamic,fast,static".toList
    blank_config (by decide)⟩

/-- C9 (counterexample): for `-t abc,0,-3 -c 0`, `parse_arguments` returns 0 and stores the
thread counts 0, 0 and -3 and the chunk size 0. -/
theorem nonpositive_values_stored :
    ∃ config, parse_arguments [('t', "abc,0,-3".toList), ('c', "0".toList)] blank_config =
        parse_outcome.returned 0 config ∧
      config.num_threads = 3 ∧ config.threads 0 = 0 ∧ config.threads 1 = 0 ∧
      config.threads 2 = -3 ∧ config.num_chunk_sizes = 1 ∧ config.chunk_sizes 0 = 0 :=
  ⟨_, rfl, rfl, rfl, rfl, rfl, rfl, rfl⟩

/-- C9 (amended): after options that all have a case of the switch, a `-t`/`--threads`
(or `-c`/`--chunk`) option with any argument makes `parse_arguments` return 0, and the
thread counts (chunk sizes) it leaves are the values `atoi` gives the first ten non-empty
comma-separated tokens, in order, whatever their sign. -/
theorem parse_arguments_numbers_unchecked (pre : List (Char × List Char))
    (optarg : List Char) (config0 : config_t) (hpre : ∀ o ∈ pre, has_case o.1 = true) :
    (∃ config, parse_arguments (pre ++ [('t', optarg)]) config0 =
        parse_outcome.returned 0 config ∧
      (List.range config.num_threads).map config.threads =
        ((strtok_comma optarg []).take 10).map atoi) ∧
    (∃ config, parse_arguments (pre ++ [('c', optarg)]) config0 =
        parse_outcome.returned 0 config ∧
      (List.range config.num_chunk_sizes).map config.chunk_sizes =
        ((strtok_comma optarg []).take 10).map atoi) := by
  obtain ⟨config1, -, h2⟩ := parse_arguments_loop_append pre hpre (init_default_config config0)
  constructor
  · refine ⟨{ config1 with
        threads := (parse_comma_separated optarg config1.threads).1
        num_threads := (parse_comma_separated optarg config1.threads).2 }, ?_, ?_⟩
    · unfold parse_arguments
      rw [h2]
      rfl
    · exact parse_comma_separated_stored optarg _
  · refine ⟨{ config1 with
        chunk_sizes := (parse_comma_separated optarg config1.chunk_sizes).1
        num_chunk_sizes := (parse_comma_separated optarg config1.chunk_sizes).2 }, ?_, ?_⟩
    · unfold parse_arguments
      rw [h2]
      rfl
    · exact parse_comma_separated_stored optarg _

theorem parse_arguments_numbers_unchecked_witness :
    (∀ o ∈ [('a', ([] : List Char))], has_case o.1 = true) ∧
    (∃ config, parse_arguments ([('a', [])] ++ [('t', "4,x,-2".toList)]) blank_config =
        parse_outcome.returned 0 config ∧
      (List.range config.num_threads).map config.threads =
        ((strtok_comma "4,x,-2".toList []).take 10).map atoi) ∧
    (∃ config, parse_arguments ([('a', [])] ++ [('c', "4,x,-2".toList)]) blank_config =
        parse_outcome.returned 0 config ∧
      (List.range config.num_chunk_sizes).map config.chunk_sizes =
        ((strtok_comma "4,x,-2".toList []).take 10).map atoi) :=
  ⟨by decide, parse_arguments_numbers_unchecked [('a', [])] "4,x,-2".toList blank_config
    (by decide)⟩

theorem experiments_append (l1 l2 : List event) :
    experiments (l1 ++ l2) = experiments l1 ++ experiments l2 := by
  induction l1 with
  | nil => rfl
  | cons e l1 ih => cases e <;> simp [experiments, ih]

theorem foldl_append_singleton {β : Type} (f : Nat → β) (l : List Nat) (out : List β) :
    l.foldl (fun out t => out ++ [f t]) out = out ++ l.map f := by
  induction l generalizing out with
  | nil => simp
  | cons t l ih => simp [ih]

theorem foldl_append_list {β : Type} (g : Nat → List β) (l : List Nat) (out : List β) :
    l.foldl (fun out s => out ++ g s) out = out ++ l.flatMap g := by
  induction l generalizing out with
  | nil => simp
  | cons s l ih => simp [ih]

theorem experiments_map_run_experiment (f : Nat → Int × Int × Int × Int) (v : Int)
    (l : List Nat) :
    experiments (l.map (fun t =>
      event.run_experiment (f t).1 (f t).2.1 (f t).2.2.1 (f t).2.2.2 v)) = l.map f := by
  induction l with
  | nil => rfl
  | cons t l ih => simp [experiments, ih]

/-- C10: for every configuration, the calls of `run_experiment` that `run_quick_test`
makes are, in order, those for `s = 0 .. num_sizes-1` and, within each, for
`t = 0 .. num_threads-1`, with arguments `(sizes[s], threads[t], 16, 0)`: chunk 16 and the
static schedule whatever `chunk_sizes` and `schedule_types` hold; there are
`num_sizes * num_threads` of them. -/
theorem run_quick_test_experiments (config : config_t) :
    experiments (run_quick_test config) =
      (List.range config.num_sizes).flatMap (fun s =>
        (List.range config.num_threads).map (fun t =>
          (config.sizes s, config.threads t, 16, 0))) ∧
    (experiments (run_quick_test config)).length = config.num_sizes * config.num_threads := by
  have hmain : experiments (run_quick_test config) =
      (List.range config.num_sizes).flatMap (fun s =>
        (List.range config.num_threads).map (fun t =>
          (config.sizes s, config.threads t, (16 : Int), (0 : Int)))) := by
    unfold run_quick_test
    rw [experiments_append]
    have hhead : experiments (if config.verbose ≠ 0 then
        [event.stdout "=== Quick Parallel Matrix Multiplication Test ===\n",
         event.stdout "Testing basic configurations...\n\n"]
        else [event.stdout "size,threads,chunk,schedule,time\n"]) = [] := by
      split_ifs <;> rfl
    rw [hhead, List.nil_append, for_loop_zero_eq_foldl]
    simp only [for_loop_zero_eq_foldl, foldl_append_singleton, foldl_append_list,
      List.nil_append]
    induction (List.range config.num_sizes) with
    | nil => rfl
    | cons s l ih =>
      rw [List.flatMap_cons, List.flatMap_cons, experiments_append, ih]
      congr 1
      exact experiments_map_run_experiment
        (fun t => (config.sizes s, config.threads t, (16 : Int), (0 : Int))) config.verbose _
  refine ⟨hmain, ?_⟩
  rw [hmain]
  have hlen : ∀ l : List Nat, (l.flatMap (fun s =>
      (List.range config.num_threads).map (fun t =>
        (config.sizes s, config.threads t, (16 : Int), (0 : Int))))).length =
      l.length * config.num_threads := by
    intro l
    induction l with
    | nil => simp
    | cons s l ih =>
      rw [List.flatMap_cons, List.length_append, ih, List.length_map, List.length_range,
        List.length_cons, Nat.succ_mul, Nat.add_comm]
  rw [hlen, List.length_range]

end matrix_mult

namespace matrix_mult

/-- A loop whose body adds `e i` to the experiments of its output adds them in order. -/
theorem experiments_for_loop (n : Nat) (body : Nat → List event → List event)
    (e : Nat → List (Int × Int × Int × Int))
    (h : ∀ i out, experiments (body i out) = experiments out ++ e i) (out : List event) :
    experiments (for_loop 0 n body out) = experiments out ++ (List.range n).flatMap e := by
  rw [for_loop_zero_eq_foldl]
  induction n with
  | zero => simp
  | succ n ih =>
    rw [List.range_succ, List.foldl_append, List.flatMap_append]
    simp only [List.foldl_cons, List.foldl_nil, List.flatMap_cons, List.flatMap_nil,
      List.append_nil]
    rw [h, ih, List.append_assoc]

theorem experiments_stdout_if (b : Prop) [Decidable b] (out : List event) (text : String) :
    experiments (if b then out ++ [event.stdout text] else out) = experiments out := by
  split_ifs
  · rw [experiments_append]; simp [experiments]
  · rfl

/-- The product of the four index ranges, nested in the order size, schedule, chunk,
threads, as `(sizes[s], threads[t], chunk_sizes[c], schedule_types[sch])`. -/
theorem run_comprehensive_test_experiments_eq (config : config_t) :
    experiments (run_comprehensive_test config) =
      (List.range config.num_sizes).flatMap (fun s =>
        (List.range config.num_schedule_types).flatMap (fun sch =>
          (List.range config.num_chunk_sizes).flatMap (fun c =>
            (List.range config.num_threads).flatMap (fun t =>
              [(config.sizes s, config.threads t, config.chunk_sizes c,
                config.schedule_types sch)])))) := by
  have hprint : ∀ (n : Nat) (f : Nat → String),
      experiments (for_loop 0 n (fun i out => out ++ [event.stdout (f i)]) []) = [] := by
    intro n f
    rw [experiments_for_loop n _ (fun _ => []) (by
      intro i out
      rw [experiments_append]
      rfl)]
    simp [experiments]
  have hthreads : ∀ (size chunk schedule_type : Int) (out : List event),
      experiments (for_loop 0 config.num_threads (fun t out =>
        out ++ [event.run_experiment size (config.threads t) chunk schedule_type
          config.verbose]) out) =
      experiments out ++ (List.range config.num_threads).flatMap (fun t =>
        [(size, config.threads t, chunk, schedule_type)]) := by
    intro size chunk schedule_type out
    exact experiments_for_loop _ _ _ (by
      intro t out
      rw [experiments_append]
      rfl) out
  unfold run_comprehensive_test
  rw [experiments_append]
  have hhead : experiments (if config.verbose ≠ 0 then
      [event.stdout "=== Comprehensive Parallel Matrix Multiplication Test ===\n",
       event.stdout "Matrix sizes: "] ++
      for_loop 0 config.num_sizes (fun i out =>
        out ++ [event.stdout (toString (config.sizes i) ++ " ")]) [] ++
      [event.stdout "\nThread counts: "] ++
      for_loop 0 config.num_threads (fun i out =>
        out ++ [event.stdout (toString (config.threads i) ++ " ")]) [] ++
      [event.stdout "\nChunk sizes: "] ++
      for_loop 0 config.num_chunk_sizes (fun i out =>
        out ++ [event.stdout (toString (config.chunk_sizes i) ++ " ")]) [] ++
      [event.stdout "\nSchedule types: "] ++
      for_loop 0 config.num_schedule_types (fun i out =>
        out ++ [event.stdout
          ((if config.schedule_types i = 0 then "static" else "dynamic") ++ " ")]) [] ++
      [event.stdout "\n\n"]
    else [event.stdout "size,threads,chunk,schedule,time\n"]) = [] := by
    split_ifs
    · simp only [experiments_append, hprint]
      rfl
    · rfl
  rw [hhead, List.nil_append]
  rw [experiments_for_loop _ _ (fun s =>
    (List.range config.num_schedule_types).flatMap (fun sch =>
      (List.range config.num_chunk_sizes).flatMap (fun c =>
        (List.range config.num_threads).flatMap (fun t =>
          [(config.sizes s, config.threads t, config.chunk_sizes c,
            config.schedule_types sch)]))))]
  · rfl
  intro s out
  rw [experiments_for_loop _ _ (fun sch =>
      (List.range config.num_chunk_sizes).flatMap (fun c =>
        (List.range config.num_threads).flatMap (fun t =>
          [(config.sizes s, config.threads t, config.chunk_sizes c,
            config.schedule_types sch)]))), experiments_stdout_if]
  intro sch out
  rw [experiments_for_loop _ _ (fun c =>
        (List.range config.num_threads).flatMap (fun t =>
          [(config.sizes s, config.threads t, config.chunk_sizes c,
            config.schedule_types sch)])), experiments_stdout_if]
  intro c out
  rw [experiments_stdout_if, hthreads, experiments_stdout_if]

end matrix_mult

namespace matrix_mult

theorem mem_sweep_indices (ns nsch nc nt s sch c t : Nat) :
    (s, sch, c, t) ∈ sweep_indices ns nsch nc nt ↔ s < ns ∧ sch < nsch ∧ c < nc ∧ t < nt := by
  simp only [sweep_indices, List.mem_flatMap, List.mem_map, List.mem_range, Prod.mk.injEq]
  constructor
  · rintro ⟨s', hs, sch', hsch, c', hc, t', ht, rfl, rfl, rfl, rfl⟩
    exact ⟨hs, hsch, hc, ht⟩
  · rintro ⟨hs, hsch, hc, ht⟩
    exact ⟨s, hs, sch, hsch, c, hc, t, ht, rfl, rfl, rfl, rfl⟩

/-- Lists built for distinct keys, each without repetition and each carrying its key, make
a list without repetition. -/
theorem nodup_flatMap_of_key {β : Type} (l : List Nat) (hl : l.Nodup) (f : Nat → List β)
    (key : β → Nat) (hkey : ∀ x, ∀ y ∈ f x, key y = x) (hf : ∀ x, (f x).Nodup) :
    (l.flatMap f).Nodup := by
  rw [List.nodup_flatMap]
  refine ⟨fun x _ => hf x, ?_⟩
  refine List.Pairwise.imp ?_ hl
  intro a b hab
  rw [Function.onFun, List.disjoint_left]
  intro y hya hyb
  exact hab ((hkey a y hya).symm.trans (hkey b y hyb))

theorem sweep_indices_nodup (ns nsch nc nt : Nat) : (sweep_indices ns nsch nc nt).Nodup := by
  unfold sweep_indices
  refine nodup_flatMap_of_key _ (List.nodup_range _) _ (fun i => i.1) ?_ ?_
  · intro s y hy
    simp only [List.mem_flatMap, List.mem_map] at hy
    obtain ⟨_, _, _, _, _, _, rfl⟩ := hy
    rfl
  intro s
  refine nodup_flatMap_of_key _ (List.nodup_range _) _ (fun i => i.2.1) ?_ ?_
  · intro sch y hy
    simp only [List.mem_flatMap, List.mem_map] at hy
    obtain ⟨_, _, _, _, rfl⟩ := hy
    rfl
  intro sch
  refine nodup_flatMap_of_key _ (List.nodup_range _) _ (fun i => i.2.2.1) ?_ ?_
  · intro c y hy
    simp only [List.mem_map] at hy
    obtain ⟨_, _, rfl⟩ := hy
    rfl
  intro c
  refine (List.nodup_range _).map ?_
  intro t t' h
  simpa using h

theorem sweep_indices_length (ns nsch nc nt : Nat) :
    (sweep_indices ns nsch nc nt).length = ns * nsch * nc * nt := by
  have hconst : ∀ {β : Type} (l : List Nat) (f : Nat → List β) (k : Nat),
      (∀ x, (f x).length = k) → (l.flatMap f).length = l.length * k := by
    intro β l f k hk
    induction l with
    | nil => simp
    | cons x l ih =>
      rw [List.flatMap_cons, List.length_append, ih, hk, List.length_cons, Nat.succ_mul,
        Nat.add_comm]
  unfold sweep_indices
  rw [hconst _ _ (nsch * nc * nt), List.length_range]
  · ring
  intro s
  rw [hconst _ _ (nc * nt), List.length_range]
  · ring
  intro sch
  rw [hconst _ _ nt, List.length_range]
  intro c
  simp

end matrix_mult

namespace matrix_mult

theorem flatMap_singleton_eq_map {β : Type} (f : Nat → β) (l : List Nat) :
    l.flatMap (fun t => [f t]) = l.map f := by
  induction l with
  | nil => rfl
  | cons t l ih => simp [ih]

/-- In CSV mode the output is the header line followed by the experiments. -/
theorem run_comprehensive_test_csv (config : config_t) (hv : config.verbose = 0) :
    run_comprehensive_test config =
      event.stdout "size,threads,chunk,schedule,time\n" ::
        (sweep_indices config.num_sizes config.num_schedule_types config.num_chunk_sizes
          config.num_threads).map (fun i =>
            event.run_experiment (config.sizes i.1) (config.threads i.2.2.2)
              (config.chunk_sizes i.2.2.1) (config.schedule_types i.2.1) 0) := by
  unfold run_comprehensive_test sweep_indices
  simp only [hv, ne_eq, not_true_eq_false, if_false, for_loop_zero_eq_foldl,
    foldl_append_singleton, foldl_append_list, List.nil_append, List.singleton_append,
    List.map_flatMap, List.map_map, Function.comp_def]

/-- C11: for every configuration, the calls of `run_experiment` that
`run_comprehensive_test` makes are those for the index tuples `(s, sch, c, t)` of four
nested loops, over the sizes, then the schedule types, then the chunk sizes, then the
thread counts, with arguments `(sizes[s], threads[t], chunk_sizes[c], schedule_types[sch])`;
each tuple below the four counts occurs, none occurs twice, and there are
`num_sizes * num_schedule_types * num_chunk_sizes * num_threads` calls.  In non-verbose mode
the output is the line `size,threads,chunk,schedule,time` once, followed by the experiments
and nothing else. -/
theorem run_comprehensive_test_product (config : config_t) :
    experiments (run_comprehensive_test config) =
      (sweep_indices config.num_sizes config.num_schedule_types config.num_chunk_sizes
        config.num_threads).map (fun i =>
          (config.sizes i.1, config.threads i.2.2.2, config.chunk_sizes i.2.2.1,
            config.schedule_types i.2.1)) ∧
    (sweep_indices config.num_sizes config.num_schedule_types config.num_chunk_sizes
      config.num_threads).Nodup ∧
    (∀ s sch c t, (s, sch, c, t) ∈ sweep_indices config.num_sizes config.num_schedule_types
        config.num_chunk_sizes config.num_threads ↔
      s < config.num_sizes ∧ sch < config.num_schedule_types ∧
        c < config.num_chunk_sizes ∧ t < config.num_threads) ∧
    (experiments (run_comprehensive_test config)).length =
      config.num_sizes * config.num_schedule_types * config.num_chunk_sizes *
        config.num_threads ∧
    (config.verbose = 0 →
      run_comprehensive_test config =
        event.stdout "size,threads,chunk,schedule,time\n" ::
          (sweep_indices config.num_sizes config.num_schedule_types config.num_chunk_sizes
            config.num_threads).map (fun i =>
              event.run_experiment (config.sizes i.1) (config.threads i.2.2.2)
                (config.chunk_sizes i.2.2.1) (config.schedule_types i.2.1) 0)) := by
  have h1 : experiments (run_comprehensive_test config) =
      (sweep_indices config.num_sizes config.num_schedule_types config.num_chunk_sizes
        config.num_threads).map (fun i =>
          (config.sizes i.1, config.threads i.2.2.2, config.chunk_sizes i.2.2.1,
            config.schedule_types i.2.1)) := by
    rw [run_comprehensive_test_experiments_eq]
    simp only [sweep_indices, List.map_flatMap, List.map_map, Function.comp_def,
      flatMap_singleton_eq_map]
  refine ⟨h1, sweep_indices_nodup _ _ _ _, fun s sch c t => mem_sweep_indices _ _ _ _ s sch c t,
    ?_, run_comprehensive_test_csv config⟩
  rw [h1, List.length_map, sweep_indices_length]

end matrix_mult

namespace matrix_mult

theorem run_comprehensive_test_product_witness :
    (init_default_config blank_config).verbose = 0 ∧
    run_comprehensive_test (init_default_config blank_config) =
      event.stdout "size,threads,chunk,schedule,time\n" ::
        (sweep_indices (init_default_config blank_config).num_sizes
          (init_default_config blank_config).num_schedule_types
          (init_default_config blank_config).num_chunk_sizes
          (init_default_config blank_config).num_threads).map (fun i =>
            event.run_experiment ((init_default_config blank_config).sizes i.1)
              ((init_default_config blank_config).threads i.2.2.2)
              ((init_default_config blank_config).chunk_sizes i.2.2.1)
              ((init_default_config blank_config).schedule_types i.2.1) 0) :=
  ⟨rfl, (run_comprehensive_test_product (init_default_config blank_config)).2.2.2.2 rfl⟩

/-- The tokens of `strtok` are the non-empty pieces between commas. -/
theorem strtok_comma_eq_splitOn (str cur : List Char) :
    strtok_comma str cur =
      ((List.splitOn ',' str).modifyHead (fun piece => cur.reverse ++ piece)).filter
        (fun piece => piece ≠ []) := by
  induction str generalizing cur with
  | nil =>
    by_cases h : cur = []
    · simp [strtok_comma, List.splitOn, h]
    · simp [strtok_comma, List.splitOn, h]
  | cons ch rest ih =>
    by_cases hch : ch = ','
    · subst hch
      have hrest : strtok_comma rest [] =
          (List.splitOn ',' rest).filter (fun piece => piece ≠ []) := by
        rw [ih []]
        congr 1
        cases List.splitOn ',' rest <;> simp [List.modifyHead]
      by_cases h : cur = []
      · simp only [strtok_comma, h, if_true, List.splitOn, List.splitOnP_cons, beq_self_eq_true,
          List.modifyHead_cons, List.reverse_nil, List.nil_append]
        simpa [List.splitOn] using hrest
      · simp only [strtok_comma, h, if_true, if_false, List.splitOn, List.splitOnP_cons,
          beq_self_eq_true, List.modifyHead_cons, List.append_nil]
        rw [List.filter_cons_of_pos (by simpa using h)]
        congr 1
    · have hsplit : List.splitOn ',' (ch :: rest) =
          (List.splitOn ',' rest).modifyHead (List.cons ch) := by
        simp [List.splitOn, List.splitOnP_cons, hch]
      simp only [strtok_comma, hch, if_false]
      rw [ih (ch :: cur), hsplit]
      congr 1
      cases List.splitOn ',' rest <;> simp [List.modifyHead]

theorem parse_comma_separated_loop_frame (tokens : List (List Char)) (array : Nat → Int)
    (count : Nat) (hcount : count ≤ 10) :
    (parse_comma_separated_loop tokens array count).2 = min 10 (count + tokens.length) ∧
    ∀ i, (parse_comma_separated_loop tokens array count).2 ≤ i →
      (parse_comma_separated_loop tokens array count).1 i = array i := by
  induction tokens generalizing array count with
  | nil => simp [parse_comma_separated_loop, hcount]
  | cons token rest ih =>
    by_cases h : count < 10
    · obtain ⟨h1, h2⟩ := ih (Function.update array count (atoi token)) (count + 1) (by omega)
      simp only [parse_comma_separated_loop, h, if_true, List.length_cons]
      refine ⟨by rw [h1]; congr 1; omega, ?_⟩
      intro i hi
      rw [h2 i hi, Function.update_noteq]
      rw [h1] at hi
      omega
    · have h10 : count = 10 := by omega
      simp [parse_comma_separated_loop, h10]

end matrix_mult

namespace matrix_mult

/-- C16: for every input string and every prior content of the target array,
`parse_comma_separated` sets the count to `min(10, k)`, `k` the number of non-empty
comma-separated tokens; the entries below the count are the `atoi` values of the first
`min(10, k)` such tokens, in order; every entry at or above the count, so every entry at
index 10 or more, keeps what it held; `1,,2` gives the two entries 1 and 2, and the empty
string gives the count 0. -/
theorem parse_comma_separated_first_ten (str : List Char) (array : Nat → Int) :
    (parse_comma_separated str array).2 = min 10 (comma_tokens_spec str).length ∧
    (List.range (parse_comma_separated str array).2).map (parse_comma_separated str array).1 =
      ((comma_tokens_spec str).take 10).map atoi ∧
    (∀ i, (parse_comma_separated str array).2 ≤ i →
      (parse_comma_separated str array).1 i = array i) ∧
    (∀ i, 10 ≤ i → (parse_comma_separated str array).1 i = array i) ∧
    ((parse_comma_separated "1,,2".toList array).2 = 2 ∧
      (parse_comma_separated "1,,2".toList array).1 0 = 1 ∧
      (parse_comma_separated "1,,2".toList array).1 1 = 2) ∧
    (parse_comma_separated [] array).2 = 0 := by
  have htok : strtok_comma str [] = comma_tokens_spec str := by
    rw [strtok_comma_eq_splitOn, comma_tokens_spec]
    congr 1
    cases List.splitOn ',' str <;> simp [List.modifyHead]
  obtain ⟨h1, h2⟩ := parse_comma_separated_loop_frame (strtok_comma str []) array 0 (by omega)
  have hcount : (parse_comma_separated str array).2 = min 10 (comma_tokens_spec str).length := by
    unfold parse_comma_separated
    rw [h1, htok, Nat.zero_add]
  refine ⟨hcount, ?_, h2, ?_, ⟨rfl, rfl, rfl⟩, rfl⟩
  · rw [parse_comma_separated_stored, htok]
  · intro i hi
    apply h2
    have := hcount
    unfold parse_comma_separated at this
    omega

end matrix_mult

namespace matrix_mult

/-- C15 (counterexample): with `n = 1`, 4 workers and chunk size `1073741824` (a value the
option parser stores: `chunk_size ≥ 1`), the stride `num_threads * chunk_size` of the
static loop is 0 in 32 bits, and the static loop of worker 0 does not terminate: worker 0
has not returned after any interleaving. -/
theorem parallel_mm_stride_overflow_counterexample :
    (1 : Int) ≤ 1073741824 ∧ wrap (4 * 1073741824) = 0 ∧
    (parse_comma_separated "1073741824".toList (fun _ => 0)).1 0 = 1073741824 ∧
    (∀ schedule : List Nat,
      ((run_threads 1 4 1073741824 0 (fun _ _ => (1 : Int)) (fun _ _ => 1) schedule
        (pool_init 1 4 1073741824 0 (fun _ _ => (1 : Int)) (fun _ _ => 1)
          (fun _ _ => 0))).pcs 0).is_done = false) := by
  refine ⟨by decide, by decide, by decide, fun schedule => ?_⟩
  exact stride_overflow_never_done 1 _ _ _ (by decide) schedule

/-- C15 (amended): for every `n`, `W`, schedule kind, worker `t < W` and interleaving
`schedule` of the workers' steps: with a chunk size `c ≥ 1` such that
`n + W * c ≤ 2147483647`, worker `t` has returned once it has taken `step_bound n` steps,
under either schedule, and under the dynamic schedule a worker that has returned has
fetched a start row `ceil(n / c) + 1` times; with chunk size 0 and `n ≥ 1`, under either
schedule, worker `t` stays in its loops with its outer row index at 0 and has not
returned, however many steps it has taken; and `parse_comma_separated` stores the value 0
for the text `0`. -/
theorem parallel_mm_terminates_iff_chunk_advances {α : Type} [Zero α] [Add α] [Mul α]
    (n W : Nat) (sched : Int) (A B C0 : Mat α) (schedule : List Nat) (t : Nat)
    (ht : t < W) :
    (∀ c : Nat, 1 ≤ c → n + W * c ≤ 2147483647 →
      (step_bound n ≤ schedule.count t →
        (run_threads (n : Int) W c sched A B schedule
          (pool_init (n : Int) W c sched A B C0)).pcs t = pc.done) ∧
      (sched ≠ 0 →
        (run_threads (n : Int) W c sched A B schedule
          (pool_init (n : Int) W c sched A B C0)).pcs t = pc.done →
        fetch_count t (run_threads (n : Int) W c sched A B schedule
          (pool_init (n : Int) W c sched A B C0)).mem = (n + c - 1) / c + 1)) ∧
    (1 ≤ n →
      stuck ((run_threads (n : Int) W 0 sched A B schedule
        (pool_init (n : Int) W 0 sched A B C0)).pcs t) ∧
      ((run_threads (n : Int) W 0 sched A B schedule
        (pool_init (n : Int) W 0 sched A B C0)).pcs t).is_done = false) ∧
    (∀ array : Nat → Int, (parse_comma_separated "0".toList array).2 = 1 ∧
      (parse_comma_separated "0".toList array).1 0 = 0) := by
  refine ⟨fun c hc hr => ⟨fun hcount => ?_, fun h0 hd => ?_⟩, fun hn => ?_,
    fun array => ⟨rfl, rfl⟩⟩
  · exact run_threads_done n W c sched A B C0 hc hr schedule t ht hcount
  · have h1 := ((run_threads_pool_inv n W c sched A B C0 hc hr schedule).1 t ht).2.2.2 h0
    rw [hd] at h1
    exact h1
  · have h1 : stuck ((run_threads (n : Int) W 0 sched A B schedule
        (pool_init (n : Int) W 0 sched A B C0)).pcs t) := by
      apply run_threads_stuck (n : Int) W 0 sched A B (by exact_mod_cast hn)
        (fun _ => by simp [wrap_zero]) (fun _ => rfl)
      show stuck (parallel_mm_init (thread_data (n : Int) W 0 sched A B t))
      unfold parallel_mm_init thread_data
      split_ifs
      · simp [stuck, wrap_zero]
      · simp [stuck]
    exact ⟨h1, stuck_not_done _ h1⟩

theorem parallel_mm_terminates_iff_chunk_advances_witness :
    (2 < 4 ∧ 1 ≤ 16 ∧ 129 + 4 * 16 ≤ 2147483647 ∧ (1 : Int) ≠ 0 ∧ 1 ≤ 129 ∧
      step_bound 129 ≤ (List.replicate (step_bound 129) 2).count 2) ∧
    (run_threads ((129 : Nat) : Int) ((4 : Nat) : Int) ((16 : Nat) : Int) 1
      (fun _ _ => (1 : Int)) (fun _ _ => 1) (List.replicate (step_bound 129) 2)
      (pool_init ((129 : Nat) : Int) ((4 : Nat) : Int) ((16 : Nat) : Int) 1
        (fun _ _ => (1 : Int)) (fun _ _ => 1) (fun _ _ => 0))).pcs 2 = pc.done ∧
    fetch_count 2 (run_threads ((129 : Nat) : Int) ((4 : Nat) : Int) ((16 : Nat) : Int) 1
      (fun _ _ => (1 : Int)) (fun _ _ => 1) (List.replicate (step_bound 129) 2)
      (pool_init ((129 : Nat) : Int) ((4 : Nat) : Int) ((16 : Nat) : Int) 1
        (fun _ _ => (1 : Int)) (fun _ _ => 1) (fun _ _ => 0))).mem =
          (129 + 16 - 1) / 16 + 1 ∧
    ((run_threads ((129 : Nat) : Int) ((4 : Nat) : Int) 0 1
      (fun _ _ => (1 : Int)) (fun _ _ => 1) (List.replicate (step_bound 129) 2)
      (pool_init ((129 : Nat) : Int) ((4 : Nat) : Int) 0 1
        (fun _ _ => (1 : Int)) (fun _ _ => 1) (fun _ _ => 0))).pcs 2).is_done = false :=
  ⟨⟨by decide, by decide, by decide, by decide, by decide,
      le_of_eq (List.count_replicate_self 2 (step_bound 129)).symm⟩,
    ((parallel_mm_terminates_iff_chunk_advances 129 4 1 (fun _ _ => (1 : Int))
      (fun _ _ => 1) (fun _ _ => 0) (List.replicate (step_bound 129) 2) 2 (by decide)).1 16
        (by decide) (by decide)).1
          (le_of_eq (List.count_replicate_self 2 (step_bound 129)).symm),
    ((parallel_mm_terminates_iff_chunk_advances 129 4 1 (fun _ _ => (1 : Int))
      (fun _ _ => 1) (fun _ _ => 0) (List.replicate (step_bound 129) 2) 2 (by decide)).1 16
        (by decide) (by decide)).2 (by decide)
          (((parallel_mm_terminates_iff_chunk_advances 129 4 1 (fun _ _ => (1 : Int))
            (fun _ _ => 1) (fun _ _ => 0) (List.replicate (step_bound 129) 2) 2
              (by decide)).1 16 (by decide) (by decide)).1
                (le_of_eq (List.count_replicate_self 2 (step_bound 129)).symm)),
    ((parallel_mm_terminates_iff_chunk_advances 129 4 1 (fun _ _ => (1 : Int))
      (fun _ _ => 1) (fun _ _ => 0) (List.replicate (step_bound 129) 2) 2
        (by decide)).2.1 (by decide)).2⟩

end matrix_mult

namespace lab2

/-- C14: in the thread-scaling loop, whatever the measured reduction times, the speedup of
the first entry (`t = 0`, one thread) is 1; for every later entry the baseline
`single_thread_time` is 0, and for a positive reduction time the speedup is 0 divided by
that time, which is 0, and differs from the time of the first entry divided by the time of
this entry when the first time is positive; so with positive times the table reports the
speedups 1, 0, 0, 0, 0 for 1, 2, 4, 8, 16 threads. -/
theorem scaling_speedup_baseline_zero (red_time : Nat → ℚ) :
    scaling_speedup 0 (red_time 0) = some 1 ∧
    (∀ t, 1 ≤ t →
      single_thread_time t (red_time t) = 0 ∧
      (0 < red_time t →
        scaling_speedup t (red_time t) = some (0 / red_time t) ∧
        scaling_speedup t (red_time t) = some 0 ∧
        (0 < red_time 0 → scaling_speedup t (red_time t) ≠ some (red_time 0 / red_time t)))) ∧
    ((∀ t, 0 < red_time t) →
      (scaling_table red_time).map (fun row => (row.1, row.2.2)) =
        [(1, some 1), (2, some 0), (4, some 0), (8, some 0), (16, some 0)]) := by
  have hlater : ∀ t, 1 ≤ t → 0 < red_time t → scaling_speedup t (red_time t) = some 0 := by
    intro t ht hpos
    have h0 : t ≠ 0 := by omega
    simp [scaling_speedup, single_thread_time, h0, ne_of_gt hpos]
  refine ⟨by simp [scaling_speedup], ?_, ?_⟩
  · intro t ht
    have h0 : t ≠ 0 := by omega
    refine ⟨by simp [single_thread_time, h0], ?_⟩
    intro hpos
    refine ⟨by rw [hlater t ht hpos, zero_div], hlater t ht hpos, ?_⟩
    intro hpos0
    rw [hlater t ht hpos]
    intro h
    have h1 : (0 : ℚ) = red_time 0 / red_time t := Option.some.inj h
    have h2 : 0 < red_time 0 / red_time t := div_pos hpos0 hpos
    rw [← h1] at h2
    exact lt_irrefl _ h2
  · intro hpos
    have h1 := hlater 1 (by omega) (hpos 1)
    have h2 := hlater 2 (by omega) (hpos 2)
    have h3 := hlater 3 (by omega) (hpos 3)
    have h4 := hlater 4 (by omega) (hpos 4)
    have h0 : scaling_speedup 0 (red_time 0) = some 1 := by simp [scaling_speedup]
    simp [scaling_table, for_loop, thread_counts, List.range', h0, h1, h2, h3, h4]

theorem scaling_speedup_baseline_zero_witness :
    (1 ≤ 3 ∧ (0 : ℚ) < (fun t : Nat => (1 : ℚ) / (t + 1)) 3 ∧
      (0 : ℚ) < (fun t : Nat => (1 : ℚ) / (t + 1)) 0) ∧
    single_thread_time 3 ((fun t : Nat => (1 : ℚ) / (t + 1)) 3) = 0 ∧
    (0 < (fun t : Nat => (1 : ℚ) / (t + 1)) 3 →
      scaling_speedup 3 ((fun t : Nat => (1 : ℚ) / (t + 1)) 3) =
        some (0 / (fun t : Nat => (1 : ℚ) / (t + 1)) 3) ∧
      scaling_speedup 3 ((fun t : Nat => (1 : ℚ) / (t + 1)) 3) = some 0 ∧
      (0 < (fun t : Nat => (1 : ℚ) / (t + 1)) 0 →
        scaling_speedup 3 ((fun t : Nat => (1 : ℚ) / (t + 1)) 3) ≠
          some ((fun t : Nat => (1 : ℚ) / (t + 1)) 0 /
            (fun t : Nat => (1 : ℚ) / (t + 1)) 3))) :=
  ⟨⟨by decide, by norm_num, by norm_num⟩,
    (scaling_speedup_baseline_zero (fun t : Nat => (1 : ℚ) / (t + 1))).2.1 3 (by decide)⟩

end lab2

namespace lab3_primes

/-- The trial-division loop returns 0 when one of `i, i + 2, i + 4, ...` up to `limit`
divides `n`, and 1 when none does. -/
theorem is_prime_loop_eq (n limit i : Nat) :
    ((∃ k, i + 2 * k ≤ limit ∧ n % (i + 2 * k) = 0) → is_prime_loop n limit i = 0) ∧
    ((¬ ∃ k, i + 2 * k ≤ limit ∧ n % (i + 2 * k) = 0) → is_prime_loop n limit i = 1) := by
  induction i using is_prime_loop.induct n limit with
  | case1 x h1 h2 =>
    rw [is_prime_loop, if_pos h1, if_pos h2]
    exact ⟨fun _ => rfl, fun h => absurd ⟨0, by simpa using h1, by simpa using h2⟩ h⟩
  | case2 x h1 h2 ih =>
    rw [is_prime_loop, if_pos h1, if_neg h2]
    have : (∃ k, x + 2 + 2 * k ≤ limit ∧ n % (x + 2 + 2 * k) = 0) ↔
        (∃ k, x + 2 * k ≤ limit ∧ n % (x + 2 * k) = 0) := by
      constructor
      · rintro ⟨k, hk1, hk2⟩
        refine ⟨k + 1, by omega, ?_⟩
        have : x + 2 * (k + 1) = x + 2 + 2 * k := by ring
        rw [this]; exact hk2
      · rintro ⟨k, hk1, hk2⟩
        cases k with
        | zero => exact absurd (by simpa using hk2) h2
        | succ k =>
          refine ⟨k, by omega, ?_⟩
          have : x + 2 + 2 * k = x + 2 * (k + 1) := by ring
          rw [this]; exact hk2
    rw [← this]
    exact ih
  | case3 x h1 =>
    rw [is_prime_loop, if_neg h1]
    refine ⟨?_, fun _ => rfl⟩
    rintro ⟨k, hk1, -⟩
    omega

/-- An odd number from 3 on is prime exactly when no odd number from 3 up to its square
root divides it. -/
theorem odd_prime_iff (m : Nat) (h3 : 3 ≤ m) (hodd : m % 2 = 1) :
    Nat.Prime m ↔ ¬ ∃ k, 3 + 2 * k ≤ Nat.sqrt m ∧ m % (3 + 2 * k) = 0 := by
  constructor
  · rintro hp ⟨k, hk1, hk2⟩
    have hdvd : (3 + 2 * k) ∣ m := Nat.dvd_of_mod_eq_zero hk2
    have hlt : Nat.sqrt m < m := Nat.sqrt_lt_self (by omega)
    rcases (Nat.dvd_prime hp).1 hdvd with h | h <;> omega
  · intro h
    rw [Nat.prime_def_le_sqrt]
    refine ⟨by omega, ?_⟩
    intro d hd2 hdle hdvd
    rcases Nat.even_or_odd d with he | ho
    · have h2 : 2 ∣ m := dvd_trans (even_iff_two_dvd.1 he) hdvd
      omega
    · obtain ⟨j, hj⟩ := ho
      apply h
      refine ⟨j - 1, by omega, ?_⟩
      have : 3 + 2 * (j - 1) = d := by omega
      rw [this]
      exact Nat.mod_eq_zero_of_dvd hdvd

theorem is_prime_eq (n : Int) : is_prime n = (if Nat.Prime n.toNat then 1 else 0) := by
  unfold is_prime
  by_cases h1 : n < 2
  · have : ¬ Nat.Prime n.toNat := fun hp => by
      have := hp.two_le
      omega
    rw [if_pos h1, if_neg this]
  · rw [if_neg h1]
    obtain ⟨m, rfl⟩ : ∃ m : Nat, n = m := ⟨n.toNat, by omega⟩
    simp only [Int.toNat_ofNat]
    by_cases h2 : (m : Int) = 2
    · have : m = 2 := by omega
      subst this
      rw [if_pos h2, if_pos Nat.prime_two]
    · rw [if_neg h2]
      by_cases h3 : (m : Int) % 2 = 0
      · have hnp : ¬ Nat.Prime m := fun hp => by
          rcases hp.eq_two_or_odd with h | h <;> omega
        rw [if_pos h3, if_neg hnp]
      · rw [if_neg h3]
        have hp := odd_prime_iff m (by omega) (by omega)
        by_cases hprime : Nat.Prime m
        · rw [(is_prime_loop_eq m (Nat.sqrt m) 3).2 (hp.1 hprime), if_pos hprime]
        · rw [(is_prime_loop_eq m (Nat.sqrt m) 3).1 (not_not.1 (fun h => hprime (hp.2 h))),
            if_neg hprime]

/-- C13: for every integer `n` (so for every 32-bit signed integer), `is_prime(n)`, with
`limit` the integer floor of the square root of `n`, returns 1 if `n` is a prime number
and 0 otherwise; in particular it returns 0 for negative numbers, 0 and 1, 1 for 2, 0 for
every even number above 2, and 0 for the odd squares 9 and 25. -/
theorem is_prime_correct (n : Int) :
    is_prime n = (if Nat.Prime n.toNat then 1 else 0) ∧
    (n < 2 → is_prime n = 0) ∧ is_prime 2 = 1 ∧
    (2 < n → n % 2 = 0 → is_prime n = 0) ∧ is_prime 9 = 0 ∧ is_prime 25 = 0 := by
  refine ⟨is_prime_eq n, ?_, ?_, ?_, ?_, ?_⟩
  · intro h
    unfold is_prime
    rw [if_pos h]
  · rw [is_prime_eq, show Int.toNat 2 = 2 from rfl, if_pos (by norm_num)]
  · intro h1 h2
    unfold is_prime
    rw [if_neg (by omega), if_neg (by omega), if_pos h2]
  · rw [is_prime_eq, show Int.toNat 9 = 9 from rfl, if_neg (by norm_num)]
  · rw [is_prime_eq, show Int.toNat 25 = 25 from rfl, if_neg (by norm_num)]

theorem is_prime_correct_witness :
    ((-7 : Int) < 2 ∧ (2 : Int) < 10 ∧ (10 : Int) % 2 = 0) ∧
    is_prime (-7) = 0 ∧ is_prime 10 = 0 :=
  ⟨⟨by decide, by decide, by decide⟩, (is_prime_correct (-7)).2.1 (by decide),
    (is_prime_correct 10).2.2.2.1 (by decide) (by decide)⟩

end lab3_primes

namespace lab3_primes

end lab3_primes

namespace lab3_primes

end lab3_primes

namespace lab3_primes

end lab3_primes
